import Mathlib

set_option maxHeartbeats 1000000
set_option maxRecDepth 100000

deriving instance DecidableEq for Except

/- Shallow embedding of src/server/vectorStore.js (class VectorStore).
   JS strings are modelled as lists of characters (JStr); the JS numbers
   that appear as similarity scores are modelled as rationals; Math.sin
   and Math.sqrt are threaded as explicit parameters of the environment,
   since their floating point values are not exactly representable, and
   every theorem below holds for every choice of them. -/

abbrev JStr := List Char

/-- Whitespace test for the regex class \s used in text.split (ASCII part:
space, tab, LF, VT, FF, CR). -/
def isWs (c : Char) : Bool :=
  c.toNat = 32 || c.toNat = 9 || c.toNat = 10 || c.toNat = 11 || c.toNat = 12 || c.toNat = 13

/-- JS String.prototype.trim: strip whitespace from both ends. -/
def trim (s : JStr) : JStr :=
  ((s.dropWhile isWs).reverse.dropWhile isWs).reverse

/-- State machine for JS text.split on the regex \s+ (line 45): acc is the
current word reversed; inWs records whether we are inside a whitespace run
whose word has already been emitted. A leading whitespace run emits an
empty first word and a trailing one an empty last word, exactly as the JS
split does. -/
def splitWsGo : JStr → JStr → Bool → List JStr
  | [], acc, _ => [acc.reverse]
  | c :: rest, acc, inWs =>
    if isWs c then
      if inWs then splitWsGo rest [] true
      else acc.reverse :: splitWsGo rest [] true
    else splitWsGo rest (c :: acc) false

/-- JS text.split on the regex \s+ (line 45). -/
def splitWs (s : JStr) : List JStr := splitWsGo s [] false

/-- JS Array.prototype.join with a single space separator, as used on
words.slice(i, i + maxChunkSize) in chunkText (line 48). -/
def joinSp : List JStr → JStr
  | [] => []
  | [w] => w
  | w :: v => w ++ Char.ofNat 32 :: joinSp v

/-- A chunk as produced by chunkText: trimmed window text and window ordinal. -/
structure Chunk where
  text : JStr
  index : Nat
deriving DecidableEq

/-- The for loop of chunkText (lines 47 to 55): i advances by
maxChunkSize - overlap; the window is words.slice(i, i + maxChunkSize)
joined by single spaces; a window whose trimmed join is nonempty is kept
with index i / (maxChunkSize - overlap). fuel bounds the number of
iterations: any fuel above words.length is enough, because i grows by at
least one per iteration in the only configuration ever used
(maxChunkSize 1000, overlap 200). -/
def chunkLoopF (words : List JStr) (maxChunkSize overlap : Nat) : Nat → Nat → List Chunk
  | 0, _ => []
  | fuel + 1, i =>
    if i < words.length then
      let chunk := joinSp ((words.drop i).take maxChunkSize)
      let rest := chunkLoopF words maxChunkSize overlap fuel (i + (maxChunkSize - overlap))
      if trim chunk ≠ [] then Chunk.mk (trim chunk) (i / (maxChunkSize - overlap)) :: rest
      else rest
    else []

/-- chunkText (lines 43 to 58) at its default parameters maxChunkSize = 1000
and overlap = 200; every call site uses the defaults. -/
def chunkText (text : JStr) : List Chunk :=
  chunkLoopF (splitWs text) 1000 200 ((splitWs text).length + 1) 0

structure ProviderErr where
  msg : JStr
deriving DecidableEq

/-- The ambient runtime of VectorStore: Math.sin, the provider embedding
endpoint (openai.embeddings.create, which may throw), whether
OPENAI_API_KEY is set, and Math.sqrt. -/
structure Env where
  sin : Nat → ℚ
  provider : JStr → Except ProviderErr (List ℚ)
  hasApiKey : Bool
  sqrt : ℚ → ℚ

/-- JS text.charCodeAt(i % text.length) with the fallback of lines 65 and 79,
which turns the NaN produced on the empty string into 0. -/
def charCodeAt (text : JStr) (i : Nat) : Nat :=
  (text.getD (i % text.length) (Char.ofNat 0)).toNat

/-- The deterministic fallback vector (lines 64 to 68 and 78 to 82): 256
entries, entry i being (Math.sin(c + i) + 1) / 2 with c the char code. -/
def pseudoVector (env : Env) (text : JStr) : List ℚ :=
  (List.range 256).map fun i => (env.sin (charCodeAt text i + i) + 1) / 2

/-- generateEmbedding (lines 60 to 88): without an API key return the pseudo
vector; with one, call the provider on the first 8192 characters and fall
back to the pseudo vector when the call throws. Both branches return a
vector, so the function itself never throws. -/
def generateEmbedding (env : Env) (text : JStr) : List ℚ :=
  if env.hasApiKey then
    match env.provider (text.take 8192) with
    | Except.ok v => v
    | Except.error _ => pseudoVector env text
  else pseudoVector env text

/-- cosineSimilarity (lines 177 to 189), generic over the score field with
Math.sqrt passed explicitly. The Array.isArray guard of line 178 is always
true in this typed model; the length guard and the zero norm guard return
0 exactly as the source does. -/
def cosineSimilarity {α : Type} [LinearOrderedField α] [DecidableEq α]
    (sqrt : α → α) (a b : List α) : α :=
  if a.length ≠ b.length then 0
  else
    let dot := (List.zipWith (fun x y => x * y) a b).sum
    let na := (a.map fun x => x * x).sum
    let nb := (b.map fun y => y * y).sum
    if na = 0 ∨ nb = 0 then 0 else dot / (sqrt na * sqrt nb)

/-- One row of the document_chunks table (initTables, lines 20 to 30). -/
structure ChunkRow where
  id : JStr
  document_id : JStr
  document_title : JStr
  chunk_text : JStr
  chunk_index : Nat
  document_type : JStr
  source_file : Option JStr
  created_at : Nat
deriving DecidableEq

/-- content_embedding is TEXT holding, per the schema comment of line 17, a
JSON array of numbers. json v stands for such well formed text (what
JSON.stringify writes at line 115 and JSON.parse recovers at line 148);
corrupt stands for externally corrupted text on which JSON.parse throws. -/
inductive StoredEmb where
  | json (v : List ℚ)
  | corrupt (raw : JStr)
deriving DecidableEq

structure EmbRow where
  id : JStr
  content_embedding : StoredEmb
deriving DecidableEq

/-- The persistent state: both tables, in rowid order, which is the order a
SELECT without ORDER BY scans. -/
structure Store where
  document_chunks : List ChunkRow
  embeddings : List EmbRow
deriving DecidableEq

/-- INSERT OR REPLACE (lines 105 to 115): the row with a conflicting primary
key is deleted and the fresh row inserted, moving it to the end of rowid
order. -/
def upsertChunk (t : List ChunkRow) (r : ChunkRow) : List ChunkRow :=
  (t.filter fun x => decide (x.id ≠ r.id)) ++ [r]

def upsertEmb (t : List EmbRow) (r : EmbRow) : List EmbRow :=
  (t.filter fun x => decide (x.id ≠ r.id)) ++ [r]

/-- Decimal digits of n, as produced by JS template interpolation of a
number; fuel bounded, with n + 1 always sufficient fuel. -/
def natCharsGo : Nat → Nat → JStr → JStr
  | 0, _, acc => acc
  | fuel + 1, n, acc =>
    if n < 10 then Char.ofNat (48 + n) :: acc
    else natCharsGo fuel (n / 10) (Char.ofNat (48 + n % 10) :: acc)

def natChars (n : Nat) : JStr := natCharsGo (n + 1) n []

/-- The chunk id template of line 99. -/
def chunkIdOf (docId : JStr) (index : Nat) : JStr :=
  docId ++ ("_chunk_").data ++ natChars index

/-- The argument of addDocument (lines 90 to 91). -/
structure Document where
  id : JStr
  title : JStr
  content : JStr
  type : JStr
  sourceFile : Option JStr
deriving DecidableEq

/-- The row addDocument writes into document_chunks (lines 105 to 109),
with now standing for Date.now(). -/
def chunkRowOf (doc : Document) (now : Nat) (c : Chunk) : ChunkRow :=
  ⟨chunkIdOf doc.id c.index, doc.id, doc.title, c.text, c.index, doc.type, doc.sourceFile, now⟩

/-- The row addDocument writes into embeddings (lines 112 to 115). -/
def embRowOf (doc : Document) (c : Chunk) (v : List ℚ) : EmbRow :=
  ⟨chunkIdOf doc.id c.index, StoredEmb.json v⟩

/-- The for loop of addDocument (lines 98 to 116). embedF stands for
this.generateEmbedding, whose outer catch at line 86 may rethrow. A throw
aborts the loop and the catch of line 119 rethrows it, but the rows
already written stay in the database, so the store is returned alongside
the outcome. -/
def addChunks (embedF : JStr → Except ProviderErr (List ℚ)) (doc : Document)
    (now : Nat) : List Chunk → Store → Store × Except ProviderErr Unit
  | [], s => (s, Except.ok ())
  | c :: rest, s =>
    match embedF c.text with
    | Except.error e => (s, Except.error e)
    | Except.ok v =>
      addChunks embedF doc now rest
        ⟨upsertChunk s.document_chunks (chunkRowOf doc now c),
         upsertEmb s.embeddings (embRowOf doc c v)⟩

/-- addDocument (lines 90 to 123): chunk the content, then embed and store
every chunk in order; on success return the number of chunks created. -/
def addDocument (embedF : JStr → Except ProviderErr (List ℚ)) (now : Nat)
    (doc : Document) (s : Store) : Store × Except ProviderErr Nat :=
  let chunks := chunkText doc.content
  match addChunks embedF doc now chunks s with
  | (s₁, Except.ok _) => (s₁, Except.ok chunks.length)
  | (s₁, Except.error e) => (s₁, Except.error e)

/-- One row of the SELECT join in search (lines 131 to 143). -/
structure RowJoined where
  id : JStr
  document_id : JStr
  document_title : JStr
  chunk_text : JStr
  chunk_index : Nat
  document_type : JStr
  source_file : Option JStr
  embedding : StoredEmb
deriving DecidableEq

/-- The join: document_chunks scanned in rowid order, each row paired with
the embeddings row of equal id; id is the primary key of embeddings, so at
most one row matches. -/
def fetchRows (s : Store) : List RowJoined :=
  s.document_chunks.filterMap fun dc =>
    (s.embeddings.find? fun e => decide (e.id = dc.id)).map fun e =>
      ⟨dc.id, dc.document_id, dc.document_title, dc.chunk_text, dc.chunk_index,
       dc.document_type, dc.source_file, e.content_embedding⟩

/-- A scored row (lines 150 to 159). -/
structure Scored where
  id : JStr
  document_id : JStr
  document_title : JStr
  chunk_text : JStr
  chunk_index : Nat
  document_type : JStr
  source_file : Option JStr
  relevanceScore : ℚ
deriving DecidableEq

/-- The scoring loop (lines 145 to 161): JSON.parse inside try catch; a row
whose stored text fails to parse is skipped by the empty catch of line
160, every other row is scored with cosineSimilarity and kept. -/
def scoreRows (env : Env) (queryEmbedding : List ℚ) (rows : List RowJoined) : List Scored :=
  rows.filterMap fun row =>
    match row.embedding with
    | StoredEmb.corrupt _ => none
    | StoredEmb.json emb =>
      some ⟨row.id, row.document_id, row.document_title, row.chunk_text, row.chunk_index,
            row.document_type, row.source_file, cosineSimilarity env.sqrt queryEmbedding emb⟩

/-- generateCitation (lines 191 to 199). -/
def generateCitation (r : Scored) : JStr :=
  match r.source_file with
  | some sf =>
    r.document_title ++ (" (").data ++ sf ++ (", section ").data
      ++ natChars (r.chunk_index + 1) ++ (")").data
  | none =>
    r.document_title ++ (" (").data ++ r.document_type ++ (", section ").data
      ++ natChars (r.chunk_index + 1) ++ (")").data

/-- The record returned by search (line 167): the scored row spread together
with its citation. -/
structure SearchResult where
  id : JStr
  document_id : JStr
  document_title : JStr
  chunk_text : JStr
  chunk_index : Nat
  document_type : JStr
  source_file : Option JStr
  relevanceScore : ℚ
  citation : JStr
deriving DecidableEq

def withCitation (r : Scored) : SearchResult :=
  ⟨r.id, r.document_id, r.document_title, r.chunk_text, r.chunk_index,
   r.document_type, r.source_file, r.relevanceScore, generateCitation r⟩

/-- The comparator (a, b) => b.relevanceScore - a.relevanceScore of the
stable Array.prototype.sort at line 165: a may stay before b iff the score
of b is at most the score of a. -/
def scoreDesc (a b : Scored) : Bool := decide (b.relevanceScore ≤ a.relevanceScore)

/-- Stable insertion into a descending list: walk past the elements whose
score is strictly larger, so an element already in the list keeps its
place relative to equal scores. -/
def insertDesc (x : Scored) : List Scored → List Scored
  | [] => [x]
  | y :: ys =>
    if x.relevanceScore < y.relevanceScore then y :: insertDesc x ys else x :: y :: ys

/-- The stable Array.prototype.sort of line 165 under the comparator
scoreDesc. The output of a stable sort is uniquely determined by the
comparator, so this structurally recursive stable insertion sort computes
exactly the array the JS engine produces. -/
def sortDesc : List Scored → List Scored
  | [] => []
  | x :: xs => insertDesc x (sortDesc xs)

/-- search (lines 125 to 175). Call site defaults: limit 5, threshold 7/10
(the float literal 0.7 of line 125 idealized as a rational). The model is
a total function: the catch of lines 170 to 174 never fires because every
failure the body can encounter (provider throw, corrupt row) is already
handled inside the body. -/
def search (env : Env) (s : Store) (query : JStr) (limit : Nat) (threshold : ℚ) :
    List SearchResult :=
  let queryEmbedding := generateEmbedding env query
  let scored := scoreRows env queryEmbedding (fetchRows s)
  ((sortDesc (scored.filter fun r => decide (threshold ≤ r.relevanceScore))).take
      limit).map withCitation

/-- A citation record pushed by getContext (lines 217 to 223). -/
structure Citation where
  id : JStr
  title : JStr
  citation : JStr
  relevanceScore : ℚ
  type : JStr
deriving DecidableEq

/-- The value of getContext (line 228). -/
structure ContextResult where
  context : JStr
  citations : List Citation
  tokenCount : Nat
deriving DecidableEq

/-- Math.ceil(chunkText.length / 4) of line 210, in exact natural arithmetic. -/
def estTokens (t : JStr) : Nat := (t.length + 3) / 4

def citationOf (r : SearchResult) : Citation :=
  ⟨r.id, r.document_title, r.citation, r.relevanceScore, r.document_type⟩

/-- The accumulation loop of getContext (lines 208 to 226): break at the
first chunk whose estimated tokens would push tokenCount beyond maxTokens,
keeping everything accumulated so far. -/
def contextLoop (maxTokens : Nat) :
    List SearchResult → JStr → List Citation → Nat → ContextResult
  | [], context, citations, tokenCount => ⟨context, citations, tokenCount⟩
  | r :: rest, context, citations, tokenCount =>
    if maxTokens < tokenCount + estTokens r.chunk_text then ⟨context, citations, tokenCount⟩
    else
      contextLoop maxTokens rest
        (context ++ ("\n\n[Source: ").data ++ r.citation ++ ("]\n").data ++ r.chunk_text)
        (citations ++ [citationOf r])
        (tokenCount + estTokens r.chunk_text)

/-- getContext (lines 201 to 229): search with limit 10, leaving search's
default threshold 7/10 in force, then accumulate under the token budget. -/
def getContext (env : Env) (s : Store) (query : JStr) (maxTokens : Nat) : ContextResult :=
  contextLoop maxTokens (search env s query 10 (7/10)) [] [] 0

/-- Forget the citation of a search record, recovering the scored row. -/
def toScored (r : SearchResult) : Scored :=
  ⟨r.id, r.document_id, r.document_title, r.chunk_text, r.chunk_index,
   r.document_type, r.source_file, r.relevanceScore⟩

/-- The longest prefix of the chunk list that addChunks embeds successfully:
the failing chunk and everything after it are never reached by the loop. -/
def okTaken (embedF : JStr → Except ProviderErr (List ℚ)) : List Chunk → List Chunk
  | [] => []
  | c :: rest =>
    match embedF c.text with
    | Except.error _ => []
    | Except.ok _ => c :: okTaken embedF rest

/-- The outcome addChunks reports, which is independent of the store. -/
def addResult (embedF : JStr → Except ProviderErr (List ℚ)) :
    List Chunk → Except ProviderErr Unit
  | [] => Except.ok ()
  | c :: rest =>
    match embedF c.text with
    | Except.error e => Except.error e
    | Except.ok _ => addResult embedF rest

/-- The chunk ids addDocument derives for a chunk list of a document. -/
def chunkIds (doc : Document) (l : List Chunk) : List JStr :=
  l.map fun c => chunkIdOf doc.id c.index

/-- The words of a chunk text, split the same way chunkText splits the
document content. -/
def wordsOfChunk (c : Chunk) : List JStr := splitWs c.text

/-- The last n entries of a list of words. -/
def lastWords (n : Nat) (w : List JStr) : List JStr := w.drop (w.length - n)

/-- A word containing no whitespace, as all words produced by splitWs are. -/
def wsFree (w : JStr) : Prop := ∀ c ∈ w, isWs c = false

/-- Every element except possibly the final one is nonempty. -/
def allButLastNE (l : List JStr) : Prop := ∀ w ∈ l.dropLast, w ≠ []

/-- Witness fixture: a keyless environment whose pseudo vectors are the
constant vector of 256 halves, with the one square root value that matters
(the squared norm 64) mapped to 8. -/
def wEnv : Env :=
  ⟨fun _ => 0, fun _ => Except.error ⟨[]⟩, false, fun q => if q = 64 then 8 else 0⟩

def wDoc : Document := ⟨("d").data, ("T").data, ("hello").data, ("note").data, none⟩

/-- A store holding wDoc ingested through the model's own embedding path. -/
def wStore : Store :=
  (addDocument (fun t => Except.ok (generateEmbedding wEnv t)) 0 wDoc ⟨[], []⟩).1

/-- Counterexample fixture: an environment with an API key whose provider
throws on every invocation. -/
def ceEnv : Env := ⟨fun _ => 0, fun _ => Except.error ⟨[]⟩, true, fun _ => 0⟩

def ceRow : ChunkRow :=
  ⟨("c1").data, ("d1").data, ("T").data, ("x").data, 0, ("note").data, none, 0⟩

/-- A store whose single stored embedding parses to a vector of dimension 0,
mismatching every query vector. -/
def ceStore : Store := ⟨[ceRow], [⟨("c1").data, StoredEmb.json []⟩]⟩

/-- A store whose single stored embedding parses to the one dimensional
vector [1], mismatching every 256 dimensional pseudo query vector. -/
def ceStore4 : Store := ⟨[ceRow], [⟨("c1").data, StoredEmb.json [1]⟩]⟩

/-- C3 fixture: 801 one letter words, which chunk into two windows (the
first of 801 words, the second of the single word at position 800). -/
def contentBig : JStr := joinSp (List.replicate 801 (("a").data))

def docBig : Document := ⟨("d").data, ("T").data, contentBig, ("note").data, none⟩

/-- An embedder failing exactly on inputs longer than ten characters, hence
on the first window of docBig but not on the second. -/
def embedFailLong : JStr → Except ProviderErr (List ℚ) :=
  fun t => if 10 < t.length then Except.error ⟨[]⟩ else Except.ok [1]

def embedOk1 : JStr → Except ProviderErr (List ℚ) := fun _ => Except.ok [1]

/-- C7 witness fixture: 1601 one letter words, chunking into three windows
(at word offsets 0, 800 and 1600). -/
def c7Text : JStr := joinSp (List.replicate 1601 (("a").data))

/- ================================================================== -/
/- Properties of the stable sort used by search -/

theorem insertDesc_perm (x : Scored) : ∀ l : List Scored, (insertDesc x l).Perm (x :: l)
  | [] => List.Perm.refl _
  | y :: ys => by
    unfold insertDesc
    by_cases h : x.relevanceScore < y.relevanceScore
    · simp only [if_pos h]
      exact ((insertDesc_perm x ys).cons y).trans (List.Perm.swap x y ys)
    · simp only [if_neg h]
      exact List.Perm.refl _

theorem sortDesc_perm : ∀ l : List Scored, (sortDesc l).Perm l
  | [] => List.Perm.refl _
  | x :: xs => (insertDesc_perm x (sortDesc xs)).trans ((sortDesc_perm xs).cons x)

theorem insertDesc_sorted (x : Scored) {l : List Scored}
    (hl : l.Pairwise fun a b => b.relevanceScore ≤ a.relevanceScore) :
    (insertDesc x l).Pairwise fun a b => b.relevanceScore ≤ a.relevanceScore := by
  induction l with
  | nil => simp [insertDesc]
  | cons y ys ih =>
    rcases List.pairwise_cons.mp hl with ⟨hy, hys⟩
    unfold insertDesc
    by_cases h : x.relevanceScore < y.relevanceScore
    · simp only [if_pos h]
      refine List.pairwise_cons.mpr ⟨?_, ih hys⟩
      intro z hz
      rcases List.mem_cons.mp ((insertDesc_perm x ys).mem_iff.mp hz) with rfl | hz'
      · exact le_of_lt h
      · exact hy z hz'
    · simp only [if_neg h]
      push_neg at h
      refine List.pairwise_cons.mpr ⟨?_, hl⟩
      intro z hz
      rcases List.mem_cons.mp hz with rfl | hz'
      · exact h
      · exact (hy z hz').trans h

theorem sortDesc_sorted : ∀ l : List Scored,
    (sortDesc l).Pairwise fun a b => b.relevanceScore ≤ a.relevanceScore
  | [] => List.Pairwise.nil
  | x :: xs => insertDesc_sorted x (sortDesc_sorted xs)

theorem insertDesc_filter_score (x : Scored) (q : ℚ) :
    ∀ l : List Scored,
      (insertDesc x l).filter (fun r => decide (r.relevanceScore = q)) =
      ((x :: l).filter fun r => decide (r.relevanceScore = q))
  | [] => rfl
  | y :: ys => by
    unfold insertDesc
    by_cases h : x.relevanceScore < y.relevanceScore
    · simp only [if_pos h]
      by_cases hx : x.relevanceScore = q
      · have hy : ¬ y.relevanceScore = q := by
          intro e
          rw [hx] at h
          rw [e] at h
          exact lt_irrefl q h
        simp [List.filter_cons, hx, hy, insertDesc_filter_score x q ys]
      · simp [List.filter_cons, hx, insertDesc_filter_score x q ys]
    · simp only [if_neg h]

theorem sortDesc_filter_score (q : ℚ) :
    ∀ l : List Scored,
      (sortDesc l).filter (fun r => decide (r.relevanceScore = q)) =
      (l.filter fun r => decide (r.relevanceScore = q))
  | [] => rfl
  | x :: xs => by
    unfold sortDesc
    rw [insertDesc_filter_score x q (sortDesc xs)]
    simp [List.filter_cons, sortDesc_filter_score q xs]

/- ================================================================== -/
/- Basic facts about search -/

theorem toScored_withCitation (r : Scored) : toScored (withCitation r) = r := rfl

theorem withCitation_score (r : Scored) :
    (withCitation r).relevanceScore = r.relevanceScore := rfl

theorem search_mem_spec {env : Env} {s : Store} {query : JStr} {limit : Nat}
    {threshold : ℚ} {r : SearchResult}
    (hr : r ∈ search env s query limit threshold) :
    ∃ x ∈ scoreRows env (generateEmbedding env query) (fetchRows s),
      r = withCitation x ∧ threshold ≤ x.relevanceScore := by
  unfold search at hr
  rcases List.mem_map.mp hr with ⟨x, hx, rfl⟩
  have hx₁ : x ∈ sortDesc ((scoreRows env (generateEmbedding env query)
      (fetchRows s)).filter fun r => decide (threshold ≤ r.relevanceScore)) :=
    List.mem_of_mem_take hx
  have hx₂ := (sortDesc_perm _).mem_iff.mp hx₁
  rcases List.mem_filter.mp hx₂ with ⟨hmem, hq⟩
  exact ⟨x, hmem, rfl, of_decide_eq_true hq⟩

theorem search_length_le (env : Env) (s : Store) (query : JStr) (limit : Nat)
    (threshold : ℚ) : (search env s query limit threshold).length ≤ limit := by
  unfold search
  simp only [List.length_map, List.length_take]
  exact min_le_left _ _

theorem search_score_ge (env : Env) (s : Store) (query : JStr) (limit : Nat)
    (threshold : ℚ) :
    ∀ r ∈ search env s query limit threshold, threshold ≤ r.relevanceScore := by
  intro r hr
  obtain ⟨x, _, rfl, hx⟩ := search_mem_spec hr
  exact hx

/- ================================================================== -/
/- C5 -/

/-- C5: for every query, limit and threshold t, every record returned by
search has relevanceScore at least t, and at most limit records are
returned. -/
theorem c5_search_threshold_and_limit (env : Env) (s : Store) (query : JStr)
    (limit : Nat) (threshold : ℚ) :
    (∀ r ∈ search env s query limit threshold, threshold ≤ r.relevanceScore) ∧
    (search env s query limit threshold).length ≤ limit :=
  ⟨search_score_ge env s query limit threshold,
   search_length_le env s query limit threshold⟩

theorem c5_witness :
    (∀ r ∈ search wEnv wStore (("x").data) 5 (7/10), (7/10 : ℚ) ≤ r.relevanceScore) ∧
    (search wEnv wStore (("x").data) 5 (7/10)).length ≤ 5 :=
  c5_search_threshold_and_limit wEnv wStore (("x").data) 5 (7/10)

/- ================================================================== -/
/- C6 -/

theorem search_map_toScored (env : Env) (s : Store) (query : JStr) (limit : Nat)
    (threshold : ℚ) :
    (search env s query limit threshold).map toScored =
    (sortDesc ((scoreRows env (generateEmbedding env query) (fetchRows s)).filter
        fun r => decide (threshold ≤ r.relevanceScore))).take limit := by
  unfold search
  rw [List.map_map]
  have : toScored ∘ withCitation = id := funext fun r => toScored_withCitation r
  rw [this, List.map_id]

/-- C6: the search output is non-increasing in relevanceScore, and ties keep
their original storage order: for every score value q, the returned
records scoring q form a sublist, in order, of the scored rows scoring q. -/
theorem c6_search_sorted_and_stable (env : Env) (s : Store) (query : JStr)
    (limit : Nat) (threshold : ℚ) :
    ((search env s query limit threshold).Pairwise
        fun a b => b.relevanceScore ≤ a.relevanceScore) ∧
    ∀ q : ℚ,
      (((search env s query limit threshold).map toScored).filter
          fun r => decide (r.relevanceScore = q)).Sublist
        ((scoreRows env (generateEmbedding env query) (fetchRows s)).filter
          fun r => decide (r.relevanceScore = q)) := by
  constructor
  · unfold search
    refine List.pairwise_map.mpr ?_
    refine List.Pairwise.sublist (List.take_sublist _ _) ?_
    exact sortDesc_sorted _
  · intro q
    rw [search_map_toScored]
    have h₁ : ((sortDesc ((scoreRows env (generateEmbedding env query)
        (fetchRows s)).filter fun r => decide (threshold ≤ r.relevanceScore))).take
          limit).filter (fun r => decide (r.relevanceScore = q)) |>.Sublist
        ((sortDesc ((scoreRows env (generateEmbedding env query)
        (fetchRows s)).filter fun r => decide (threshold ≤ r.relevanceScore))).filter
          fun r => decide (r.relevanceScore = q)) :=
      List.Sublist.filter _ (List.take_sublist _ _)
    rw [sortDesc_filter_score] at h₁
    refine h₁.trans ?_
    exact List.Sublist.filter _ (List.filter_sublist _)

theorem c6_witness :
    ((search wEnv wStore (("x").data) 5 (7/10)).Pairwise
        fun a b => b.relevanceScore ≤ a.relevanceScore) ∧
    ∀ q : ℚ,
      (((search wEnv wStore (("x").data) 5 (7/10)).map toScored).filter
          fun r => decide (r.relevanceScore = q)).Sublist
        ((scoreRows wEnv (generateEmbedding wEnv (("x").data)) (fetchRows wStore)).filter
          fun r => decide (r.relevanceScore = q)) :=
  c6_search_sorted_and_stable wEnv wStore (("x").data) 5 (7/10)

theorem search_sorted (env : Env) (s : Store) (query : JStr) (limit : Nat)
    (threshold : ℚ) :
    (search env s query limit threshold).Pairwise
      fun a b => b.relevanceScore ≤ a.relevanceScore := by
  unfold search
  refine List.pairwise_map.mpr ?_
  refine List.Pairwise.sublist (List.take_sublist _ _) ?_
  exact sortDesc_sorted _

/- ================================================================== -/
/- The accumulation loop of getContext -/

theorem citationOf_score (r : SearchResult) :
    (citationOf r).relevanceScore = r.relevanceScore := rfl

theorem contextLoop_spec (maxTokens : Nat) :
    ∀ (results : List SearchResult) (ctx : JStr) (cits : List Citation) (tk : Nat),
      ∃ k, k ≤ results.length ∧
        (contextLoop maxTokens results ctx cits tk).citations =
          cits ++ (results.take k).map citationOf ∧
        (contextLoop maxTokens results ctx cits tk).tokenCount =
          tk + ((results.take k).map fun r => estTokens r.chunk_text).sum ∧
        (tk ≤ maxTokens → (contextLoop maxTokens results ctx cits tk).tokenCount ≤ maxTokens) ∧
        ∀ r, (results.drop k).head? = some r →
          maxTokens <
            (contextLoop maxTokens results ctx cits tk).tokenCount + estTokens r.chunk_text
  | [], ctx, cits, tk => by
    refine ⟨0, Nat.le_refl _, ?_, ?_, ?_, ?_⟩ <;> simp [contextLoop]
  | r :: rest, ctx, cits, tk => by
    by_cases h : maxTokens < tk + estTokens r.chunk_text
    · refine ⟨0, Nat.zero_le _, ?_, ?_, ?_, ?_⟩
      · simp [contextLoop, if_pos h]
      · simp [contextLoop, if_pos h]
      · intro htk
        simpa [contextLoop, if_pos h] using htk
      · intro r' hr'
        have hrr : r = r' := by simpa using hr'
        subst hrr
        simpa [contextLoop, if_pos h] using h
    · obtain ⟨k, hk, hc, ht, hb, hs⟩ := contextLoop_spec maxTokens rest
        (ctx ++ ("\n\n[Source: ").data ++ r.citation ++ ("]\n").data ++ r.chunk_text)
        (cits ++ [citationOf r]) (tk + estTokens r.chunk_text)
      have hstep : contextLoop maxTokens (r :: rest) ctx cits tk =
          contextLoop maxTokens rest
            (ctx ++ ("\n\n[Source: ").data ++ r.citation ++ ("]\n").data ++ r.chunk_text)
            (cits ++ [citationOf r]) (tk + estTokens r.chunk_text) := by
        simp [contextLoop, if_neg h]
      refine ⟨k + 1, Nat.succ_le_succ hk, ?_, ?_, ?_, ?_⟩
      · rw [hstep, hc]
        simp [List.take_succ_cons]
      · rw [hstep, ht]
        simp [List.take_succ_cons]
        omega
      · intro _
        rw [hstep]
        exact hb (Nat.le_of_not_lt h)
      · intro r' hr'
        rw [hstep]
        exact hs r' (by simpa [List.drop_succ_cons] using hr')

/- ================================================================== -/
/- C1 -/

/-- C1: getContext never exceeds the token budget; its citations are exactly
a prefix of the search results taken greedily in relevance descending
order, the token count is the sum of ceil(length / 4) over the included
chunks, and the loop stopped exactly when the next chunk would have
exceeded maxTokens, keeping everything accumulated before it. -/
theorem c1_token_budget (env : Env) (s : Store) (query : JStr) (maxTokens : Nat) :
    (getContext env s query maxTokens).tokenCount ≤ maxTokens ∧
    ∃ k, k ≤ (search env s query 10 (7/10)).length ∧
      (getContext env s query maxTokens).citations =
        ((search env s query 10 (7/10)).take k).map citationOf ∧
      (getContext env s query maxTokens).tokenCount =
        (((search env s query 10 (7/10)).take k).map fun r => estTokens r.chunk_text).sum ∧
      (((search env s query 10 (7/10)).take k).Pairwise
        fun a b => b.relevanceScore ≤ a.relevanceScore) ∧
      ∀ r, ((search env s query 10 (7/10)).drop k).head? = some r →
        maxTokens < (getContext env s query maxTokens).tokenCount + estTokens r.chunk_text := by
  obtain ⟨k, hk, hc, ht, hb, hs⟩ :=
    contextLoop_spec maxTokens (search env s query 10 (7/10)) [] [] 0
  have hg : getContext env s query maxTokens =
      contextLoop maxTokens (search env s query 10 (7/10)) [] [] 0 := rfl
  refine ⟨?_, k, hk, ?_, ?_, ?_, ?_⟩
  · rw [hg]
    exact hb (Nat.zero_le _)
  · rw [hg, hc]
    simp
  · rw [hg, ht]
    simp
  · exact List.Pairwise.sublist (List.take_sublist _ _)
      (search_sorted env s query 10 (7/10))
  · intro r hr
    rw [hg]
    exact hs r hr

theorem c1_witness :
    (getContext wEnv wStore (("x").data) 4000).tokenCount ≤ 4000 ∧
    ∃ k, k ≤ (search wEnv wStore (("x").data) 10 (7/10)).length ∧
      (getContext wEnv wStore (("x").data) 4000).citations =
        ((search wEnv wStore (("x").data) 10 (7/10)).take k).map citationOf ∧
      (getContext wEnv wStore (("x").data) 4000).tokenCount =
        (((search wEnv wStore (("x").data) 10 (7/10)).take k).map
          fun r => estTokens r.chunk_text).sum ∧
      (((search wEnv wStore (("x").data) 10 (7/10)).take k).Pairwise
        fun a b => b.relevanceScore ≤ a.relevanceScore) ∧
      ∀ r, ((search wEnv wStore (("x").data) 10 (7/10)).drop k).head? = some r →
        4000 < (getContext wEnv wStore (("x").data) 4000).tokenCount +
          estTokens r.chunk_text :=
  c1_token_budget wEnv wStore (("x").data) 4000

/- ================================================================== -/
/- C10 -/

/-- C10: getContext includes at most ten chunks, and every citation it lists
carries a relevanceScore of at least 7/10, because it calls search with
limit 10 and search's default threshold 7/10. -/
theorem c10_limit_and_default_threshold (env : Env) (s : Store) (query : JStr)
    (maxTokens : Nat) :
    (getContext env s query maxTokens).citations.length ≤ 10 ∧
    ∀ c ∈ (getContext env s query maxTokens).citations,
      (7/10 : ℚ) ≤ c.relevanceScore := by
  obtain ⟨k, hk, hc, ht, hb, hs⟩ :=
    contextLoop_spec maxTokens (search env s query 10 (7/10)) [] [] 0
  have hg : getContext env s query maxTokens =
      contextLoop maxTokens (search env s query 10 (7/10)) [] [] 0 := rfl
  constructor
  · rw [hg, hc]
    simp only [List.nil_append, List.length_map, List.length_take]
    exact le_trans (min_le_right _ _) (search_length_le env s query 10 (7/10))
  · intro c hc'
    rw [hg, hc] at hc'
    simp only [List.nil_append, List.mem_map] at hc'
    obtain ⟨r, hr, rfl⟩ := hc'
    rw [citationOf_score]
    exact search_score_ge env s query 10 (7/10) r
      (List.mem_of_mem_take hr)

theorem c10_witness :
    (getContext wEnv wStore (("x").data) 4000).citations.length ≤ 10 ∧
    ∀ c ∈ (getContext wEnv wStore (("x").data) 4000).citations,
      (7/10 : ℚ) ≤ c.relevanceScore :=
  c10_limit_and_default_threshold wEnv wStore (("x").data) 4000

/- ================================================================== -/
/- C2 -/

/-- C2 counterexample: the provider of ceEnv throws on every invocation, yet
search on ceStore (one chunk whose stored vector has mismatched dimension,
scored 0) returns a nonempty list at threshold -1: the provider failure is
recovered by the pseudo vector fallback inside generateEmbedding, so
search does not return the empty list. -/
theorem c2_counterexample :
    ceEnv.provider = (fun _ => Except.error ⟨[]⟩) ∧
    search ceEnv ceStore (("q").data) 5 (-1) ≠ [] :=
  ⟨rfl, by decide⟩

/-- C2 amended: when the provider throws on every invocation,
generateEmbedding falls back to the deterministic pseudo vector and search
proceeds normally with it, so results may be nonempty; search and
getContext are total (never throw) and return the empty results exactly
when nothing is stored, in particular on an empty store. -/
theorem c2_amended (env : Env) (q : JStr) (s : Store) (limit : Nat)
    (threshold : ℚ) (maxTokens : Nat)
    (hthrow : ∀ t, ∃ e, env.provider t = Except.error e) :
    generateEmbedding env q = pseudoVector env q ∧
    (s.document_chunks = [] →
      search env s q limit threshold = [] ∧
      getContext env s q maxTokens = ⟨[], [], 0⟩) := by
  constructor
  · unfold generateEmbedding
    cases hk : env.hasApiKey with
    | false => simp
    | true =>
      obtain ⟨e, he⟩ := hthrow (q.take 8192)
      simp [he]
  · intro hs
    have hfetch : fetchRows s = [] := by
      unfold fetchRows
      rw [hs]
      rfl
    have hsearch : ∀ lim thr, search env s q lim thr = [] := by
      intro lim thr
      unfold search
      rw [hfetch]
      simp [scoreRows, sortDesc]
    refine ⟨hsearch limit threshold, ?_⟩
    unfold getContext
    rw [hsearch 10 (7/10)]
    rfl

theorem c2_amended_witness :
    generateEmbedding ceEnv (("q").data) = pseudoVector ceEnv (("q").data) ∧
    (search ceEnv ⟨[], []⟩ (("q").data) 5 (7/10) = [] ∧
     getContext ceEnv ⟨[], []⟩ (("q").data) 4000 = ⟨[], [], 0⟩) := by
  have H := c2_amended ceEnv (("q").data) ⟨[], []⟩ 5 (7/10) 4000 fun t => ⟨⟨[]⟩, rfl⟩
  exact ⟨H.1, H.2 rfl⟩

/- ================================================================== -/
/- C4 -/

theorem mem_scoreRows {env : Env} {qE : List ℚ} {rows : List RowJoined} {x : Scored}
    (hx : x ∈ scoreRows env qE rows) :
    ∃ row ∈ rows, ∃ emb, row.embedding = StoredEmb.json emb ∧
      x = ⟨row.id, row.document_id, row.document_title, row.chunk_text, row.chunk_index,
           row.document_type, row.source_file, cosineSimilarity env.sqrt qE emb⟩ := by
  unfold scoreRows at hx
  rcases List.mem_filterMap.mp hx with ⟨row, hrow, hf⟩
  cases hemb : row.embedding with
  | corrupt raw =>
    rw [hemb] at hf
    exact absurd hf (by simp)
  | json emb =>
    rw [hemb] at hf
    refine ⟨row, hrow, emb, hemb, ?_⟩
    exact (Option.some.inj hf).symm

/-- C4 counterexample: ceStore4 stores the one dimensional vector [1] while
the query embedding has dimension 256, a dimensionality mismatch; with
threshold -1 the row is not skipped but scored 0 by cosineSimilarity and
appears in the result list. -/
theorem c4_counterexample :
    ceStore4.embeddings = [⟨("c1").data, StoredEmb.json [1]⟩] ∧
    (generateEmbedding ceEnv (("q").data)).length = 256 ∧
    (search ceEnv ceStore4 (("q").data) 5 (-1)).map
        (fun r => (r.id, r.relevanceScore)) = [((("c1").data : JStr), (0 : ℚ))] :=
  ⟨rfl, by decide, by decide⟩

/-- C4 amended: a stored embedding on which JSON.parse throws is skipped
during scoring and never appears in the result list (every result traces
back to a row whose stored text parses), and a corrupt row never fails the
search, which is total; a stored embedding of mismatched dimensionality is
not skipped but scored 0, hence it is excluded from the results whenever
the threshold is positive (in particular at the default 7/10), though it
can appear with score 0 at a nonpositive threshold. -/
theorem c4_amended (env : Env) (s : Store) (q : JStr) (limit : Nat) (threshold : ℚ) :
    (∀ r ∈ search env s q limit threshold,
      ∃ row ∈ fetchRows s, ∃ emb, row.embedding = StoredEmb.json emb ∧
        r.id = row.id ∧
        r.relevanceScore = cosineSimilarity env.sqrt (generateEmbedding env q) emb) ∧
    (0 < threshold →
      ∀ r ∈ search env s q limit threshold,
        ∃ row ∈ fetchRows s, ∃ emb, row.embedding = StoredEmb.json emb ∧
          r.id = row.id ∧ emb.length = (generateEmbedding env q).length) := by
  constructor
  · intro r hr
    obtain ⟨x, hx, rfl, hth⟩ := search_mem_spec hr
    obtain ⟨row, hrow, emb, hemb, hxe⟩ := mem_scoreRows hx
    subst hxe
    exact ⟨row, hrow, emb, hemb, rfl, rfl⟩
  · intro hpos r hr
    obtain ⟨x, hx, rfl, hth⟩ := search_mem_spec hr
    obtain ⟨row, hrow, emb, hemb, hxe⟩ := mem_scoreRows hx
    subst hxe
    refine ⟨row, hrow, emb, hemb, rfl, ?_⟩
    by_contra hne
    have hzero : cosineSimilarity env.sqrt (generateEmbedding env q) emb = 0 := by
      unfold cosineSimilarity
      rw [if_pos fun h => hne h.symm]
    have h₁ : threshold ≤ cosineSimilarity env.sqrt (generateEmbedding env q) emb := hth
    rw [hzero] at h₁
    exact absurd (lt_of_lt_of_le hpos h₁) (lt_irrefl 0)

theorem c4_amended_witness :
    (∀ r ∈ search wEnv wStore (("x").data) 5 (7/10),
      ∃ row ∈ fetchRows wStore, ∃ emb, row.embedding = StoredEmb.json emb ∧
        r.id = row.id ∧
        r.relevanceScore =
          cosineSimilarity wEnv.sqrt (generateEmbedding wEnv (("x").data)) emb) ∧
    (∀ r ∈ search wEnv wStore (("x").data) 5 (7/10),
      ∃ row ∈ fetchRows wStore, ∃ emb, row.embedding = StoredEmb.json emb ∧
        r.id = row.id ∧ emb.length = (generateEmbedding wEnv (("x").data)).length) := by
  have H := c4_amended wEnv wStore (("x").data) 5 (7/10)
  exact ⟨H.1, H.2 (by norm_num)⟩

/- ================================================================== -/
/- C3 -/

/-- C3 counterexample: docBig chunks into two windows; the embedder fails on
the first window only and would succeed on the second (the single word a
at ordinal 1), yet addDocument ingests nothing at all and propagates the
error, so the failure of one chunk embeds does prevent the remaining chunk
from being ingested. -/
theorem c3_counterexample :
    (addDocument embedFailLong 0 docBig ⟨[], []⟩).2 = Except.error ⟨[]⟩ ∧
    (addDocument embedFailLong 0 docBig ⟨[], []⟩).1.document_chunks = [] ∧
    (chunkText docBig.content).length = 2 ∧
    (chunkText docBig.content).getD 1 ⟨[], 0⟩ = ⟨("a").data, 1⟩ ∧
    embedFailLong (("a").data) = Except.ok [1] :=
  ⟨by decide, by decide, by decide, by decide, rfl⟩

theorem addChunks_append_error (embedF : JStr → Except ProviderErr (List ℚ))
    (doc : Document) (now : Nat) (e : ProviderErr) :
    ∀ (l₁ : List Chunk) (c : Chunk) (l₂ : List Chunk) (s : Store),
      (∀ x ∈ l₁, ∃ v, embedF x.text = Except.ok v) →
      embedF c.text = Except.error e →
      addChunks embedF doc now (l₁ ++ c :: l₂) s =
        ((addChunks embedF doc now l₁ s).1, Except.error e)
  | [], c, l₂, s, _, hc => by
    simp [addChunks, hc]
  | x :: l₁, c, l₂, s, hok, hc => by
    obtain ⟨v, hv⟩ := hok x (List.mem_cons_self x l₁)
    have step := addChunks_append_error embedF doc now e l₁ c l₂
      ⟨upsertChunk s.document_chunks (chunkRowOf doc now x),
       upsertEmb s.embeddings (embRowOf doc x v)⟩
      (fun y hy => hok y (List.mem_cons_of_mem x hy)) hc
    simp only [List.cons_append, addChunks, hv]
    exact step

/-- C3 amended: when the embedding of one chunk fails, the loop aborts at
that chunk: every chunk before it is ingested and stays ingested, the
failing chunk and every chunk after it are not ingested, and addDocument
propagates the error to its caller. -/
theorem c3_amended (embedF : JStr → Except ProviderErr (List ℚ)) (now : Nat)
    (doc : Document) (s : Store) (l₁ : List Chunk) (c : Chunk) (l₂ : List Chunk)
    (e : ProviderErr)
    (hsplit : chunkText doc.content = l₁ ++ c :: l₂)
    (hok : ∀ x ∈ l₁, ∃ v, embedF x.text = Except.ok v)
    (hc : embedF c.text = Except.error e) :
    addDocument embedF now doc s = ((addChunks embedF doc now l₁ s).1, Except.error e) := by
  have h := addChunks_append_error embedF doc now e l₁ c l₂ s hok hc
  unfold addDocument
  rw [hsplit]
  show (match addChunks embedF doc now (l₁ ++ c :: l₂) s with
        | (s₁, Except.ok _) => (s₁, Except.ok (l₁ ++ c :: l₂).length)
        | (s₁, Except.error e) => (s₁, Except.error e)) =
      ((addChunks embedF doc now l₁ s).1, Except.error e)
  rw [h]

theorem c3_amended_witness :
    addDocument (fun _ => Except.error ⟨[]⟩) 0 wDoc ⟨[], []⟩ =
      ((addChunks (fun _ => Except.error ⟨[]⟩) wDoc 0 [] ⟨[], []⟩).1,
        Except.error ⟨[]⟩) :=
  c3_amended (fun _ => Except.error ⟨[]⟩) 0 wDoc ⟨[], []⟩ [] ⟨("hello").data, 0⟩ [] ⟨[]⟩
    (by decide) (by simp) rfl

/- ================================================================== -/
/- C8 -/

theorem storeExt {a b : Store} (h₁ : a.document_chunks = b.document_chunks)
    (h₂ : a.embeddings = b.embeddings) : a = b := by
  cases a
  cases b
  simp_all

theorem chunkRowOf_id (doc : Document) (now : Nat) (c : Chunk) :
    (chunkRowOf doc now c).id = chunkIdOf doc.id c.index := rfl

theorem embRowOf_id (doc : Document) (c : Chunk) (v : List ℚ) :
    (embRowOf doc c v).id = chunkIdOf doc.id c.index := rfl

theorem filter_chunkrow_cons (a : JStr) (ids : List JStr) (l : List ChunkRow) :
    ((l.filter fun x => decide (x.id ≠ a)).filter fun r => decide (r.id ∉ ids)) =
    l.filter fun r => decide (r.id ∉ a :: ids) := by
  rw [List.filter_filter]
  apply List.filter_congr
  intro r _
  by_cases h1 : r.id = a <;> by_cases h2 : r.id ∈ ids <;>
    simp [h1, h2, List.mem_cons]

theorem filter_embrow_cons (a : JStr) (ids : List JStr) (l : List EmbRow) :
    ((l.filter fun x => decide (x.id ≠ a)).filter fun r => decide (r.id ∉ ids)) =
    l.filter fun r => decide (r.id ∉ a :: ids) := by
  rw [List.filter_filter]
  apply List.filter_congr
  intro r _
  by_cases h1 : r.id = a <;> by_cases h2 : r.id ∈ ids <;>
    simp [h1, h2, List.mem_cons]

theorem addChunks_snd (embedF : JStr → Except ProviderErr (List ℚ)) (doc : Document)
    (now : Nat) : ∀ (l : List Chunk) (s : Store),
    (addChunks embedF doc now l s).2 = addResult embedF l
  | [], s => rfl
  | c :: rest, s => by
    cases h : embedF c.text with
    | error e => simp [addChunks, addResult, h]
    | ok v => simp [addChunks, addResult, h, addChunks_snd embedF doc now rest]

theorem addChunks_chunks_split (embedF : JStr → Except ProviderErr (List ℚ))
    (doc : Document) (now : Nat) : ∀ (l : List Chunk) (s : Store),
    (addChunks embedF doc now l s).1.document_chunks =
      (s.document_chunks.filter
        fun r => decide (r.id ∉ chunkIds doc (okTaken embedF l))) ++
      (addChunks embedF doc now l ⟨[], []⟩).1.document_chunks
  | [], s => by simp [addChunks, okTaken, chunkIds]
  | c :: rest, s => by
    cases h : embedF c.text with
    | error e => simp [addChunks, okTaken, chunkIds, h]
    | ok v =>
      have ih₁ := addChunks_chunks_split embedF doc now rest
        ⟨upsertChunk s.document_chunks (chunkRowOf doc now c),
         upsertEmb s.embeddings (embRowOf doc c v)⟩
      have ih₂ := addChunks_chunks_split embedF doc now rest
        ⟨upsertChunk ([] : List ChunkRow) (chunkRowOf doc now c),
         upsertEmb ([] : List EmbRow) (embRowOf doc c v)⟩
      simp only [addChunks, h] at ih₁ ih₂ ⊢
      rw [ih₁, ih₂]
      simp only [upsertChunk, List.filter_append, chunkIds, okTaken, h, List.map_cons,
        chunkRowOf_id]
      rw [filter_chunkrow_cons (chunkIdOf doc.id c.index)
        ((okTaken embedF rest).map fun x => chunkIdOf doc.id x.index) s.document_chunks]
      simp [List.append_assoc]

theorem addChunks_embs_split (embedF : JStr → Except ProviderErr (List ℚ))
    (doc : Document) (now : Nat) : ∀ (l : List Chunk) (s : Store),
    (addChunks embedF doc now l s).1.embeddings =
      (s.embeddings.filter
        fun r => decide (r.id ∉ chunkIds doc (okTaken embedF l))) ++
      (addChunks embedF doc now l ⟨[], []⟩).1.embeddings
  | [], s => by simp [addChunks, okTaken, chunkIds]
  | c :: rest, s => by
    cases h : embedF c.text with
    | error e => simp [addChunks, okTaken, chunkIds, h]
    | ok v =>
      have ih₁ := addChunks_embs_split embedF doc now rest
        ⟨upsertChunk s.document_chunks (chunkRowOf doc now c),
         upsertEmb s.embeddings (embRowOf doc c v)⟩
      have ih₂ := addChunks_embs_split embedF doc now rest
        ⟨upsertChunk ([] : List ChunkRow) (chunkRowOf doc now c),
         upsertEmb ([] : List EmbRow) (embRowOf doc c v)⟩
      simp only [addChunks, h] at ih₁ ih₂ ⊢
      rw [ih₁, ih₂]
      simp only [upsertEmb, List.filter_append, chunkIds, okTaken, h, List.map_cons,
        embRowOf_id]
      rw [filter_embrow_cons (chunkIdOf doc.id c.index)
        ((okTaken embedF rest).map fun x => chunkIdOf doc.id x.index) s.embeddings]
      simp [List.append_assoc]

theorem addChunks_chunks_mem_ids (embedF : JStr → Except ProviderErr (List ℚ))
    (doc : Document) (now : Nat) : ∀ (l : List Chunk) (s : Store) (r : ChunkRow),
    r ∈ (addChunks embedF doc now l s).1.document_chunks →
      r ∈ s.document_chunks ∨ r.id ∈ chunkIds doc (okTaken embedF l)
  | [], s, r => fun hr => Or.inl hr
  | c :: rest, s, r => by
    cases h : embedF c.text with
    | error e =>
      intro hr
      simp only [addChunks, h] at hr
      exact Or.inl hr
    | ok v =>
      intro hr
      simp only [addChunks, h] at hr
      rcases addChunks_chunks_mem_ids embedF doc now rest _ r hr with hmem | hid
      · simp only [upsertChunk, List.mem_append, List.mem_filter] at hmem
        rcases hmem with ⟨hm, _⟩ | hm
        · exact Or.inl hm
        · right
          simp only [List.mem_singleton] at hm
          subst hm
          simp [chunkIds, okTaken, h, chunkRowOf]
      · right
        simp [chunkIds, okTaken, h]
        right
        simpa [chunkIds] using hid

theorem addChunks_embs_mem_ids (embedF : JStr → Except ProviderErr (List ℚ))
    (doc : Document) (now : Nat) : ∀ (l : List Chunk) (s : Store) (r : EmbRow),
    r ∈ (addChunks embedF doc now l s).1.embeddings →
      r ∈ s.embeddings ∨ r.id ∈ chunkIds doc (okTaken embedF l)
  | [], s, r => fun hr => Or.inl hr
  | c :: rest, s, r => by
    cases h : embedF c.text with
    | error e =>
      intro hr
      simp only [addChunks, h] at hr
      exact Or.inl hr
    | ok v =>
      intro hr
      simp only [addChunks, h] at hr
      rcases addChunks_embs_mem_ids embedF doc now rest _ r hr with hmem | hid
      · simp only [upsertEmb, List.mem_append, List.mem_filter] at hmem
        rcases hmem with ⟨hm, _⟩ | hm
        · exact Or.inl hm
        · right
          simp only [List.mem_singleton] at hm
          subst hm
          simp [chunkIds, okTaken, h, embRowOf]
      · right
        simp [chunkIds, okTaken, h]
        right
        simpa [chunkIds] using hid

theorem addChunks_idempotent (embedF : JStr → Except ProviderErr (List ℚ))
    (doc : Document) (now₁ now₂ : Nat) (l : List Chunk) (s : Store) :
    addChunks embedF doc now₂ l ((addChunks embedF doc now₁ l s).1) =
    addChunks embedF doc now₂ l s := by
  have hsnd : (addChunks embedF doc now₂ l ((addChunks embedF doc now₁ l s).1)).2 =
      (addChunks embedF doc now₂ l s).2 := by
    rw [addChunks_snd, addChunks_snd]
  have hfilter_self : ∀ {α : Type} (idOf : α → JStr) (ids : List JStr) (t : List α),
      ((t.filter fun r => decide (idOf r ∉ ids)).filter
        fun r => decide (idOf r ∉ ids)) = t.filter fun r => decide (idOf r ∉ ids) := by
    intro α idOf ids t
    rw [List.filter_filter]
    apply List.filter_congr
    intro r _
    simp
  have hchunks : (addChunks embedF doc now₂ l ((addChunks embedF doc now₁ l s).1)).1.document_chunks =
      (addChunks embedF doc now₂ l s).1.document_chunks := by
    rw [addChunks_chunks_split embedF doc now₂ l ((addChunks embedF doc now₁ l s).1),
        addChunks_chunks_split embedF doc now₂ l s,
        addChunks_chunks_split embedF doc now₁ l s]
    rw [List.filter_append, hfilter_self (fun r : ChunkRow => r.id)]
    have hkill : ((addChunks embedF doc now₁ l (⟨[], []⟩ : Store)).1.document_chunks.filter
        fun r => decide (r.id ∉ chunkIds doc (okTaken embedF l))) = [] := by
      rw [List.filter_eq_nil_iff]
      intro r hr
      rcases addChunks_chunks_mem_ids embedF doc now₁ l ⟨[], []⟩ r hr with hmem | hid
      · exact absurd hmem (List.not_mem_nil r)
      · simp [hid]
    rw [hkill, List.append_nil]
  have hembs : (addChunks embedF doc now₂ l ((addChunks embedF doc now₁ l s).1)).1.embeddings =
      (addChunks embedF doc now₂ l s).1.embeddings := by
    rw [addChunks_embs_split embedF doc now₂ l ((addChunks embedF doc now₁ l s).1),
        addChunks_embs_split embedF doc now₂ l s,
        addChunks_embs_split embedF doc now₁ l s]
    rw [List.filter_append, hfilter_self (fun r : EmbRow => r.id)]
    have hkill : ((addChunks embedF doc now₁ l (⟨[], []⟩ : Store)).1.embeddings.filter
        fun r => decide (r.id ∉ chunkIds doc (okTaken embedF l))) = [] := by
      rw [List.filter_eq_nil_iff]
      intro r hr
      rcases addChunks_embs_mem_ids embedF doc now₁ l ⟨[], []⟩ r hr with hmem | hid
      · exact absurd hmem (List.not_mem_nil r)
      · simp [hid]
    rw [hkill, List.append_nil]
  exact Prod.ext (storeExt hchunks hembs) hsnd

theorem addDocument_fst (embedF : JStr → Except ProviderErr (List ℚ)) (now : Nat)
    (doc : Document) (s : Store) :
    (addDocument embedF now doc s).1 =
    (addChunks embedF doc now (chunkText doc.content) s).1 := by
  show (match addChunks embedF doc now (chunkText doc.content) s with
        | (s₁, Except.ok _) => (s₁, Except.ok (chunkText doc.content).length)
        | (s₁, Except.error e) => (s₁, Except.error e)).1 = _
  rcases h : addChunks embedF doc now (chunkText doc.content) s with ⟨s₁, r⟩
  cases r <;> rfl

theorem addDocument_eq_of_addChunks_eq (embedF : JStr → Except ProviderErr (List ℚ))
    (now : Nat) (doc : Document) {s t : Store}
    (h : addChunks embedF doc now (chunkText doc.content) s =
         addChunks embedF doc now (chunkText doc.content) t) :
    addDocument embedF now doc s = addDocument embedF now doc t := by
  show (match addChunks embedF doc now (chunkText doc.content) s with
        | (s₁, Except.ok _) => (s₁, Except.ok (chunkText doc.content).length)
        | (s₁, Except.error e) => (s₁, Except.error e)) =
       (match addChunks embedF doc now (chunkText doc.content) t with
        | (s₁, Except.ok _) => (s₁, Except.ok (chunkText doc.content).length)
        | (s₁, Except.error e) => (s₁, Except.error e))
  rw [h]

/-- C8 counterexample: ingesting the same document twice, at Date.now values
0 and then 1, leaves a store different from the store after the first
call: the created_at column of every chunk row carries the second call's
timestamp. -/
theorem c8_counterexample :
    (addDocument embedOk1 1 wDoc ((addDocument embedOk1 0 wDoc ⟨[], []⟩).1)).1 ≠
    (addDocument embedOk1 0 wDoc ⟨[], []⟩).1 := by decide

/-- C8 amended: re-ingesting the same document id with the same content
produces the same chunk ids and texts (chunkText is deterministic, so both
calls process the identical chunk list), and the second call fully
overwrites the first: the state and return value after the second call are
exactly those of a single ingestion into the original store at the second
call's timestamp. In particular, with equal timestamps the second call
leaves the store unchanged (idempotent upsert); the only deviation from
the claim is the created_at column, which carries the later timestamp. -/
theorem c8_amended (embedF : JStr → Except ProviderErr (List ℚ)) (now₁ now₂ : Nat)
    (doc : Document) (s : Store) :
    addDocument embedF now₂ doc ((addDocument embedF now₁ doc s).1) =
    addDocument embedF now₂ doc s := by
  rw [addDocument_fst embedF now₁ doc s]
  exact addDocument_eq_of_addChunks_eq embedF now₂ doc
    (addChunks_idempotent embedF doc now₁ now₂ (chunkText doc.content) s)

/- ================================================================== -/
/- C9: the cosine routine instantiated at the reals, Math.sqrt being the
   real square root -/

theorem cosine_eq (a b : List ℝ) (h : a.length = b.length) :
    cosineSimilarity Real.sqrt a b =
      if (a.map fun x => x * x).sum = 0 ∨ (b.map fun y => y * y).sum = 0 then 0
      else (List.zipWith (fun x y => x * y) a b).sum /
        (Real.sqrt (a.map fun x => x * x).sum * Real.sqrt (b.map fun y => y * y).sum) := by
  unfold cosineSimilarity
  rw [if_neg (by simp [h])]

theorem cosine_eq_zero_of_len_ne (a b : List ℝ) (h : a.length ≠ b.length) :
    cosineSimilarity Real.sqrt a b = 0 := by
  unfold cosineSimilarity
  rw [if_pos h]

theorem list_map_sum_range (f : ℝ → ℝ) : ∀ l : List ℝ,
    (l.map f).sum = ∑ i ∈ Finset.range l.length, f (l.getD i 0)
  | [] => by simp
  | x :: xs => by
    rw [List.map_cons, List.sum_cons, List.length_cons, Finset.sum_range_succ']
    simp only [List.getD_cons_succ, List.getD_cons_zero]
    rw [list_map_sum_range f xs]
    exact add_comm _ _

theorem list_zip_sum_range : ∀ (a b : List ℝ), a.length = b.length →
    (List.zipWith (fun x y => x * y) a b).sum =
    ∑ i ∈ Finset.range a.length, a.getD i 0 * b.getD i 0
  | [], [], _ => by simp
  | [], y :: ys, h => by simp at h
  | x :: xs, [], h => by simp at h
  | x :: xs, y :: ys, h => by
    rw [List.zipWith_cons_cons, List.sum_cons, List.length_cons, Finset.sum_range_succ']
    simp only [List.getD_cons_succ, List.getD_cons_zero]
    rw [list_zip_sum_range xs ys (by simpa using h)]
    exact add_comm _ _

theorem list_cauchy (a b : List ℝ) (h : a.length = b.length) :
    ((List.zipWith (fun x y => x * y) a b).sum) ^ 2 ≤
    (a.map fun x => x * x).sum * (b.map fun y => y * y).sum := by
  rw [list_zip_sum_range a b h, list_map_sum_range (fun x => x * x) a,
      list_map_sum_range (fun y => y * y) b, show b.length = a.length from h.symm]
  have hcs := Finset.sum_mul_sq_le_sq_mul_sq (Finset.range a.length)
    (fun i => a.getD i 0) (fun i => b.getD i 0)
  simpa only [pow_two] using hcs

theorem sumSq_nonneg (l : List ℝ) : 0 ≤ (l.map fun x => x * x).sum :=
  List.sum_nonneg fun x hx => by
    rcases List.mem_map.mp hx with ⟨y, _, rfl⟩
    exact mul_self_nonneg y

theorem sumSq_pos {l : List ℝ} (hx : ∃ x ∈ l, x ≠ 0) :
    0 < (l.map fun x => x * x).sum := by
  obtain ⟨x, hxl, hx0⟩ := hx
  have h1 : x * x ∈ l.map fun x => x * x := List.mem_map.mpr ⟨x, hxl, rfl⟩
  have h2 : x * x ≤ (l.map fun x => x * x).sum :=
    List.single_le_sum
      (fun y hy => by
        rcases List.mem_map.mp hy with ⟨z, _, rfl⟩
        exact mul_self_nonneg z) _ h1
  exact lt_of_lt_of_le (mul_self_pos.mpr hx0) h2

/-- C9: over the reals, with Math.sqrt the real square root, the engine's
cosineSimilarity lies in the interval from -1 to 1 for vectors of matching
dimensionality; the similarity of a nonzero vector with itself is exactly
1; and any similarity involving an all zero vector is exactly 0 through
the explicit zero norm guard, not an error. -/
theorem c9_cosine_bounds (a b : List ℝ) :
    (a.length = b.length →
      -1 ≤ cosineSimilarity Real.sqrt a b ∧ cosineSimilarity Real.sqrt a b ≤ 1) ∧
    ((∃ x ∈ a, x ≠ 0) → cosineSimilarity Real.sqrt a a = 1) ∧
    ((∀ x ∈ b, x = 0) →
      cosineSimilarity Real.sqrt a b = 0 ∧ cosineSimilarity Real.sqrt b a = 0) := by
  refine ⟨?_, ?_, ?_⟩
  · intro h
    rw [cosine_eq a b h]
    by_cases h0 : (a.map fun x => x * x).sum = 0 ∨ (b.map fun y => y * y).sum = 0
    · rw [if_pos h0]
      norm_num
    · rw [if_neg h0]
      push_neg at h0
      obtain ⟨ha0, hb0⟩ := h0
      have hna : 0 < (a.map fun x => x * x).sum :=
        lt_of_le_of_ne (sumSq_nonneg a) (Ne.symm ha0)
      have hnb : 0 < (b.map fun y => y * y).sum :=
        lt_of_le_of_ne (sumSq_nonneg b) (Ne.symm hb0)
      have hD : 0 < Real.sqrt (a.map fun x => x * x).sum *
          Real.sqrt (b.map fun y => y * y).sum :=
        mul_pos (Real.sqrt_pos.mpr hna) (Real.sqrt_pos.mpr hnb)
      have habs : |(List.zipWith (fun x y => x * y) a b).sum| ≤
          Real.sqrt (a.map fun x => x * x).sum * Real.sqrt (b.map fun y => y * y).sum := by
        have h1 := Real.sqrt_le_sqrt (list_cauchy a b h)
        rw [Real.sqrt_sq_eq_abs, Real.sqrt_mul (le_of_lt hna)] at h1
        exact h1
      constructor
      · rw [le_div_iff₀ hD]
        have := (abs_le.mp habs).1
        linarith
      · rw [div_le_one hD]
        exact (abs_le.mp habs).2
  · intro hx
    have hna : 0 < (a.map fun x => x * x).sum := sumSq_pos hx
    have hdot : (List.zipWith (fun x y => x * y) a a).sum = (a.map fun x => x * x).sum := by
      rw [List.zipWith_same]
    rw [cosine_eq a a rfl, if_neg (by push_neg; exact ⟨ne_of_gt hna, ne_of_gt hna⟩), hdot,
        Real.mul_self_sqrt (le_of_lt hna)]
    exact div_self (ne_of_gt hna)
  · intro hb
    have hnb : (b.map fun y => y * y).sum = 0 :=
      List.sum_eq_zero fun x hx => by
        rcases List.mem_map.mp hx with ⟨y, hy, rfl⟩
        rw [hb y hy]
        ring
    constructor
    · by_cases h : a.length = b.length
      · rw [cosine_eq a b h, if_pos (Or.inr hnb)]
      · exact cosine_eq_zero_of_len_ne a b h
    · by_cases h : b.length = a.length
      · rw [cosine_eq b a h, if_pos (Or.inl hnb)]
      · exact cosine_eq_zero_of_len_ne b a h

theorem c9_witness :
    (-1 ≤ cosineSimilarity Real.sqrt [(1 : ℝ), 0] [0, 1] ∧
      cosineSimilarity Real.sqrt [(1 : ℝ), 0] [0, 1] ≤ 1) ∧
    cosineSimilarity Real.sqrt [(3 : ℝ)] [3] = 1 ∧
    (cosineSimilarity Real.sqrt [(1 : ℝ)] [0] = 0 ∧
      cosineSimilarity Real.sqrt [(0 : ℝ)] [1] = 0) :=
  ⟨(c9_cosine_bounds [(1 : ℝ), 0] [0, 1]).1 rfl,
   (c9_cosine_bounds [(3 : ℝ)] [3]).2.1 ⟨3, by simp, by norm_num⟩,
   (c9_cosine_bounds [(1 : ℝ)] [0]).2.2 (by simp)⟩

/- ================================================================== -/
/- C7: structure of the word list produced by splitWs -/

theorem splitWsGo_ne_nil : ∀ (s acc : JStr) (b : Bool), splitWsGo s acc b ≠ []
  | [], _, _ => by simp [splitWsGo]
  | c :: rest, acc, b => by
    by_cases hc : isWs c
    · cases b
      · simp only [splitWsGo, hc, if_true, Bool.false_eq_true, if_false]
        simp
      · simp only [splitWsGo, hc, if_true]
        exact splitWsGo_ne_nil rest [] true
    · simp only [splitWsGo, hc, Bool.false_eq_true, if_false]
      exact splitWsGo_ne_nil rest (c :: acc) false

theorem splitWs_ne_nil (s : JStr) : splitWs s ≠ [] := splitWsGo_ne_nil s [] false

theorem splitWsGo_wsFree : ∀ (s acc : JStr) (b : Bool),
    (∀ c ∈ acc, isWs c = false) → ∀ w ∈ splitWsGo s acc b, wsFree w
  | [], acc, b => by
    intro hacc w hw
    simp only [splitWsGo, List.mem_singleton] at hw
    subst hw
    intro c hc
    exact hacc c (List.mem_reverse.mp hc)
  | c :: rest, acc, b => by
    intro hacc w hw
    by_cases hc : isWs c
    · cases b with
      | true =>
        simp only [splitWsGo, hc, if_true] at hw
        exact splitWsGo_wsFree rest [] true (by simp) w hw
      | false =>
        simp only [splitWsGo, hc, if_true, Bool.false_eq_true, if_false] at hw
        rcases List.mem_cons.mp hw with rfl | hw'
        · intro d hd
          exact hacc d (List.mem_reverse.mp hd)
        · exact splitWsGo_wsFree rest [] true (by simp) w hw'
    · simp only [splitWsGo, hc, Bool.false_eq_true, if_false] at hw
      refine splitWsGo_wsFree rest (c :: acc) false ?_ w hw
      intro d hd
      rcases List.mem_cons.mp hd with rfl | hd'
      · simpa using hc
      · exact hacc d hd'

theorem splitWs_wsFree (s : JStr) : ∀ w ∈ splitWs s, wsFree w :=
  splitWsGo_wsFree s [] false (by simp)

theorem ABL_singleton (w : JStr) : allButLastNE [w] := by
  intro x hx
  simp [List.dropLast] at hx

theorem ABL_cons {x : JStr} {l : List JStr} (hx : x ≠ []) (hl : allButLastNE l) :
    allButLastNE (x :: l) := by
  intro w hw
  rcases l with _ | ⟨y, ys⟩
  · simp [List.dropLast] at hw
  · have hd : (x :: y :: ys).dropLast = x :: (y :: ys).dropLast := rfl
    rw [hd] at hw
    rcases List.mem_cons.mp hw with rfl | hw'
    · exact hx
    · exact hl w hw'

theorem ABL_tail {l : List JStr} (hl : allButLastNE l) : allButLastNE l.tail := by
  rcases l with _ | ⟨x, t⟩
  · intro w hw
    simp at hw
  · intro w hw
    rcases t with _ | ⟨y, ys⟩
    · simp at hw
    · have hd : (x :: y :: ys).dropLast = x :: (y :: ys).dropLast := rfl
      exact hl w (by rw [hd]; exact List.mem_cons_of_mem x hw)

theorem splitWsGo_ABL : ∀ s : JStr,
    (∀ acc, acc ≠ [] → allButLastNE (splitWsGo s acc false)) ∧
    allButLastNE (splitWsGo s [] true)
  | [] =>
    ⟨fun acc _ => by
      simp only [splitWsGo]
      exact ABL_singleton _,
     by
      simp only [splitWsGo]
      exact ABL_singleton _⟩
  | c :: rest => by
    have IH := splitWsGo_ABL rest
    constructor
    · intro acc hacc
      by_cases hc : isWs c
      · simp only [splitWsGo, hc, if_true, Bool.false_eq_true, if_false]
        exact ABL_cons (by simpa using hacc) IH.2
      · simp only [splitWsGo, hc, Bool.false_eq_true, if_false]
        exact IH.1 (c :: acc) (by simp)
    · by_cases hc : isWs c
      · simp only [splitWsGo, hc, if_true]
        exact IH.2
      · simp only [splitWsGo, hc, Bool.false_eq_true, if_false]
        exact IH.1 [c] (by simp)

theorem splitWs_tail_ABL (s : JStr) : allButLastNE (splitWs s).tail := by
  unfold splitWs
  rcases s with _ | ⟨c, rest⟩
  · intro w hw
    simp [splitWsGo] at hw
  · by_cases hc : isWs c
    · simp only [splitWsGo, hc, if_true, Bool.false_eq_true, if_false]
      exact (splitWsGo_ABL rest).2
    · simp only [splitWsGo, hc, Bool.false_eq_true, if_false]
      exact ABL_tail ((splitWsGo_ABL rest).1 [c] (by simp))

theorem getD_mem_dropLast {l : List JStr} {j : Nat} (h : j + 1 < l.length) :
    l.getD j [] ∈ l.dropLast := by
  have hj : j < l.length := by omega
  have hdl : j < l.dropLast.length := by
    rw [List.dropLast_eq_take, List.length_take]
    omega
  rw [List.getD_eq_getElem l [] hj, ← List.getElem_dropLast l j hdl]
  exact List.getElem_mem hdl

theorem splitWs_inner_ne (s : JStr) : ∀ k, 0 < k → k + 1 < (splitWs s).length →
    (splitWs s).getD k [] ≠ [] := by
  intro k hk hlen
  rcases hsp : splitWs s with _ | ⟨x, t⟩
  · exact absurd hsp (splitWs_ne_nil s)
  · obtain ⟨j, rfl⟩ : ∃ j, k = j + 1 := ⟨k - 1, by omega⟩
    have htail : allButLastNE t := by
      have := splitWs_tail_ABL s
      rw [hsp] at this
      exact this
    rw [hsp] at hlen
    simp only [List.length_cons] at hlen
    have hj : j + 1 < t.length := by omega
    simp only [List.getD_cons_succ]
    exact htail _ (getD_mem_dropLast hj)

theorem getD_window {l : List JStr} {n m j : Nat} (hj : j < m) (hlen : n + j < l.length) :
    ((l.drop n).take m).getD j [] = l.getD (n + j) [] := by
  have h1 : j < (l.drop n).length := by
    rw [List.length_drop]
    omega
  have h2 : j < ((l.drop n).take m).length := by
    rw [List.length_take, List.length_drop]
    omega
  rw [List.getD_eq_getElem _ [] h2, List.getD_eq_getElem _ [] hlen,
      List.getElem_take, List.getElem_drop]

/- ================================================================== -/
/- C7: joining a window and splitting it back -/

theorem joinSp_cons_cons (w x : JStr) (v : List JStr) :
    joinSp (w :: x :: v) = w ++ Char.ofNat 32 :: joinSp (x :: v) := rfl

theorem isWs_space : isWs (Char.ofNat 32) = true := rfl

theorem splitWsGo_append_word : ∀ (w : JStr), w ≠ [] → wsFree w →
    ∀ (s acc : JStr) (b : Bool),
      splitWsGo (w ++ s) acc b = splitWsGo s (w.reverse ++ acc) false
  | [], h, _ => absurd rfl h
  | [c], _, hws => fun s acc b => by
    have hc : isWs c = false := hws c (by simp)
    simp [splitWsGo, hc]
  | c :: c' :: w', _, hws => fun s acc b => by
    have hc : isWs c = false := hws c (by simp)
    have step := splitWsGo_append_word (c' :: w') (by simp)
      (fun x hx => hws x (List.mem_cons_of_mem c hx)) s (c :: acc) false
    have h1 : splitWsGo (c :: ((c' :: w') ++ s)) acc b =
        splitWsGo ((c' :: w') ++ s) (c :: acc) false := by
      show (if isWs c = true then
              (if b = true then splitWsGo ((c' :: w') ++ s) [] true
               else acc.reverse :: splitWsGo ((c' :: w') ++ s) [] true)
            else splitWsGo ((c' :: w') ++ s) (c :: acc) false) =
          splitWsGo ((c' :: w') ++ s) (c :: acc) false
      rw [hc]
      simp
    calc splitWsGo ((c :: c' :: w') ++ s) acc b
        = splitWsGo ((c' :: w') ++ s) (c :: acc) false := h1
      _ = splitWsGo s ((c' :: w').reverse ++ (c :: acc)) false := step
      _ = splitWsGo s ((c :: c' :: w').reverse ++ acc) false := by simp

theorem splitWsGo_true_eq_false {c : Char} {t : JStr} (hc : isWs c = false) (acc : JStr) :
    splitWsGo (c :: t) acc true = splitWsGo (c :: t) acc false := by
  simp [splitWsGo, hc]

theorem joinSp_head_char (v : List JStr) (d : Char) (w : JStr) :
    ∃ t, joinSp ((d :: w) :: v) = d :: t := by
  rcases v with _ | ⟨x, v'⟩
  · exact ⟨w, rfl⟩
  · exact ⟨w ++ Char.ofNat 32 :: joinSp (x :: v'), rfl⟩

theorem joinSp_last_char : ∀ (v : List JStr), v ≠ [] →
    (∀ w ∈ v, w ≠ [] ∧ wsFree w) →
    ∃ u c, joinSp v = u ++ [c] ∧ isWs c = false
  | [], h, _ => absurd rfl h
  | [w], _, hv => by
    obtain ⟨hw, hws⟩ := hv w (by simp)
    rcases List.eq_nil_or_concat w with rfl | ⟨u, c, rfl⟩
    · exact absurd rfl hw
    · refine ⟨u, c, by simp [joinSp, List.concat_eq_append], hws c (by simp [List.concat_eq_append])⟩
  | w :: x :: v', _, hv => by
    obtain ⟨u, c, hu, hc⟩ := joinSp_last_char (x :: v') (by simp)
      fun y hy => hv y (List.mem_cons_of_mem w hy)
    refine ⟨w ++ Char.ofNat 32 :: u, c, ?_, hc⟩
    rw [joinSp_cons_cons, hu]
    simp

theorem splitWs_joinSp : ∀ (v : List JStr), v ≠ [] →
    (∀ w ∈ v, w ≠ [] ∧ wsFree w) → ∀ b : Bool,
      splitWsGo (joinSp v) [] b = v
  | [], h, _ => absurd rfl h
  | [w], _, hv => fun b => by
    obtain ⟨hw, hws⟩ := hv w (by simp)
    have hj : joinSp [w] = w ++ [] := by simp [joinSp]
    rw [hj, splitWsGo_append_word w hw hws [] [] b]
    simp [splitWsGo]
  | w :: x :: v', _, hv => fun b => by
    obtain ⟨hw, hws⟩ := hv w (by simp)
    obtain ⟨hx, hxws⟩ := hv x (by simp)
    rw [joinSp_cons_cons, splitWsGo_append_word w hw hws _ [] b]
    have hsp : splitWsGo (Char.ofNat 32 :: joinSp (x :: v')) (w.reverse ++ []) false =
        (w.reverse ++ []).reverse :: splitWsGo (joinSp (x :: v')) [] true := by
      simp [splitWsGo, isWs_space]
    rw [hsp]
    obtain ⟨d, w'', rfl⟩ : ∃ d w'', x = d :: w'' := by
      rcases x with _ | ⟨d, w''⟩
      · exact absurd rfl hx
      · exact ⟨d, w'', rfl⟩
    obtain ⟨t, ht⟩ := joinSp_head_char v' d w''
    have hd : isWs d = false := hxws d (by simp)
    rw [ht, splitWsGo_true_eq_false hd, ← ht,
        splitWs_joinSp ((d :: w'') :: v') (by simp)
          (fun y hy => hv y (List.mem_cons_of_mem w hy)) false]
    simp

theorem trim_cons_of_head {c : Char} {t : JStr} (hc : isWs c = false) :
    (c :: t).dropWhile isWs = c :: t := by
  simp [List.dropWhile_cons, hc]

theorem trim_eq_self {s : JStr}
    (h1 : ∃ c t, s = c :: t ∧ isWs c = false)
    (h2 : ∃ u c, s = u ++ [c] ∧ isWs c = false) : trim s = s := by
  obtain ⟨c, t, rfl, hc⟩ := h1
  obtain ⟨u, c', hu, hc'⟩ := h2
  unfold trim
  rw [trim_cons_of_head hc, hu]
  rw [List.reverse_append]
  simp only [List.reverse_cons, List.reverse_nil, List.nil_append, List.singleton_append]
  rw [trim_cons_of_head hc']
  simp

theorem trim_cons_space (s : JStr) : trim (Char.ofNat 32 :: s) = trim s := by
  unfold trim
  rw [List.dropWhile_cons]
  simp [isWs_space]

theorem trim_append_space {s : JStr}
    (h1 : ∃ c t, s = c :: t ∧ isWs c = false)
    (h2 : ∃ u c, s = u ++ [c] ∧ isWs c = false) :
    trim (s ++ [Char.ofNat 32]) = s := by
  obtain ⟨c, t, hs, hc⟩ := h1
  obtain ⟨u, c', hu, hc'⟩ := h2
  unfold trim
  rw [hs, List.cons_append, trim_cons_of_head hc, ← List.cons_append, ← hs, hu]
  rw [List.append_assoc, List.reverse_append]
  simp only [List.reverse_append, List.reverse_cons, List.reverse_nil, List.nil_append,
    List.singleton_append, List.cons_append]
  rw [List.dropWhile_cons]
  simp only [isWs_space, if_true]
  rw [trim_cons_of_head hc']
  simp

theorem joinSp_append_empty : ∀ (v : List JStr), v ≠ [] →
    joinSp (v ++ [[]]) = joinSp v ++ [Char.ofNat 32]
  | [], h => absurd rfl h
  | [w], _ => by simp [joinSp, joinSp_cons_cons]
  | w :: x :: v', _ => by
    have step := joinSp_append_empty (x :: v') (by simp)
    show joinSp (w :: ((x :: v') ++ [[]])) = joinSp (w :: x :: v') ++ [Char.ofNat 32]
    have h1 : joinSp (w :: ((x :: v') ++ [[]])) =
        w ++ Char.ofNat 32 :: joinSp ((x :: v') ++ [[]]) := by
      rw [show (x :: v') ++ [[]] = x :: (v' ++ [[]]) from rfl]
      exact joinSp_cons_cons w x (v' ++ [[]])
    rw [h1, step, joinSp_cons_cons]
    simp

theorem mem_joinSp : ∀ {v : List JStr} {w : JStr} {c : Char}, w ∈ v → c ∈ w → c ∈ joinSp v
  | [], _, _, hw, _ => absurd hw (List.not_mem_nil _)
  | [x], w, c, hw, hc => by
    simp only [List.mem_singleton] at hw
    subst hw
    exact hc
  | x :: y :: v', w, c, hw, hc => by
    rw [joinSp_cons_cons]
    rcases List.mem_cons.mp hw with rfl | hw'
    · exact List.mem_append_left _ hc
    · exact List.mem_append_right _ (List.mem_cons_of_mem _ (mem_joinSp hw' hc))

theorem trim_nil_all_ws {s : JStr} (h : trim s = []) : ∀ c ∈ s, isWs c = true := by
  unfold trim at h
  rw [List.reverse_eq_nil_iff] at h
  have h2 : ∀ c ∈ (s.dropWhile isWs).reverse, isWs c = true :=
    List.dropWhile_eq_nil_iff.mp h
  intro c hc
  rw [← List.takeWhile_append_dropWhile isWs s] at hc
  rcases List.mem_append.mp hc with h3 | h3
  · exact List.mem_takeWhile_imp h3
  · exact h2 c (List.mem_reverse.mpr h3)

theorem trim_joinSp_eq_nil {v : List JStr} (hws : ∀ w ∈ v, wsFree w)
    (h : trim (joinSp v) = []) : ∀ w ∈ v, w = [] := by
  intro w hw
  rcases w with _ | ⟨d, w'⟩
  · rfl
  · have hd : isWs d = true := trim_nil_all_ws h d (mem_joinSp hw (by simp))
    have hfree := hws _ hw d (by simp)
    rw [hfree] at hd
    exact absurd hd (by simp)

theorem joinSp_head_decomp (v : List JStr) (hne : v ≠ [])
    (hv : ∀ w ∈ v, w ≠ [] ∧ wsFree w) :
    ∃ c t, joinSp v = c :: t ∧ isWs c = false := by
  obtain ⟨w, v', rfl⟩ : ∃ w v', v = w :: v' := by
    rcases v with _ | ⟨w, v'⟩
    · exact absurd rfl hne
    · exact ⟨w, v', rfl⟩
  obtain ⟨hw, hws⟩ := hv w (by simp)
  obtain ⟨d, w'', rfl⟩ : ∃ d w'', w = d :: w'' := by
    rcases w with _ | ⟨d, w''⟩
    · exact absurd rfl hw
    · exact ⟨d, w'', rfl⟩
  obtain ⟨t, ht⟩ := joinSp_head_char v' d w''
  exact ⟨d, t, ht, hws d (by simp)⟩

theorem chunkWords_all (v : List JStr) (hne : v ≠ [])
    (hv : ∀ w ∈ v, w ≠ [] ∧ wsFree w) :
    splitWs (trim (joinSp v)) = v := by
  rw [trim_eq_self (joinSp_head_decomp v hne hv) (joinSp_last_char v hne hv)]
  exact splitWs_joinSp v hne hv false

theorem chunkWords_head_empty (v' : List JStr) (hne : v' ≠ [])
    (hv : ∀ w ∈ v', w ≠ [] ∧ wsFree w) :
    splitWs (trim (joinSp ([] :: v'))) = v' := by
  obtain ⟨x, v'', rfl⟩ : ∃ x v'', v' = x :: v'' := by
    rcases v' with _ | ⟨x, v''⟩
    · exact absurd rfl hne
    · exact ⟨x, v'', rfl⟩
  have hj : joinSp ([] :: x :: v'') = Char.ofNat 32 :: joinSp (x :: v'') := by
    rw [joinSp_cons_cons]
    rfl
  rw [hj, trim_cons_space]
  exact chunkWords_all (x :: v'') (by simp) hv

theorem chunkWords_last_empty (v' : List JStr) (hne : v' ≠ [])
    (hv : ∀ w ∈ v', w ≠ [] ∧ wsFree w) :
    splitWs (trim (joinSp (v' ++ [[]]))) = v' := by
  rw [joinSp_append_empty v' hne,
      trim_append_space (joinSp_head_decomp v' hne hv) (joinSp_last_char v' hne hv)]
  exact splitWs_joinSp v' hne hv false

/- ================================================================== -/
/- C7: structure of the chunk loop at the default window parameters -/

theorem getD_mem (l : List JStr) (j : Nat) (h : j < l.length) : l.getD j [] ∈ l := by
  rw [List.getD_eq_getElem l [] h]
  exact List.getElem_mem h

theorem chunkLoopF_stop (ws : List JStr) (S O : Nat) :
    ∀ (fuel i : Nat), ws.length ≤ i → chunkLoopF ws S O fuel i = []
  | 0, i, _ => rfl
  | fuel + 1, i, h => by
    simp only [chunkLoopF]
    rw [if_neg (by omega)]

theorem chunkLoopF_ne_nil_lt {ws : List JStr} {S O fuel i : Nat}
    (h : chunkLoopF ws S O fuel i ≠ []) : i < ws.length := by
  by_contra hge
  exact h (chunkLoopF_stop ws S O fuel i (by omega))

theorem chunkLoopF_skip {ws : List JStr}
    (HW : ∀ w ∈ ws, wsFree w)
    (HI : ∀ k, 0 < k → k + 1 < ws.length → ws.getD k [] ≠ [])
    {i : Nat} (hi : i < ws.length)
    (hskip : trim (joinSp ((ws.drop i).take 1000)) = []) :
    ∀ fuel, chunkLoopF ws 1000 200 fuel (i + 800) = [] := by
  intro fuel
  have hall : ∀ w ∈ (ws.drop i).take 1000, w = [] :=
    trim_joinSp_eq_nil
      (fun w hw => HW w (List.drop_subset i ws (List.take_subset 1000 _ hw))) hskip
  have h0 : ws.getD i [] = [] := by
    have hwin0 : 0 < ((ws.drop i).take 1000).length := by
      rw [List.length_take, List.length_drop]
      omega
    have hm := hall _ (getD_mem _ 0 hwin0)
    rw [getD_window (by omega) (by omega)] at hm
    simpa using hm
  by_cases hi0 : 0 < i
  · by_cases hi1 : i + 1 < ws.length
    · exact absurd h0 (HI i hi0 hi1)
    · exact chunkLoopF_stop ws 1000 200 fuel (i + 800) (by omega)
  · have hz : i = 0 := by omega
    subst hz
    by_cases hbig : 800 < ws.length
    · have hw1 : ws.getD 1 [] = [] := by
        have hwin1 : 1 < ((ws.drop 0).take 1000).length := by
          rw [List.length_take, List.length_drop]
          omega
        have hm := hall _ (getD_mem _ 1 hwin1)
        rw [getD_window (by omega) (by omega)] at hm
        simpa using hm
      exact absurd hw1 (HI 1 (by omega) (by omega))
    · exact chunkLoopF_stop ws 1000 200 fuel (0 + 800) (by omega)

theorem chunkLoopF_head {ws : List JStr}
    (HW : ∀ w ∈ ws, wsFree w)
    (HI : ∀ k, 0 < k → k + 1 < ws.length → ws.getD k [] ≠ []) :
    ∀ (fuel i : Nat), ws.length < i + fuel →
      chunkLoopF ws 1000 200 fuel i ≠ [] →
      i < ws.length ∧ trim (joinSp ((ws.drop i).take 1000)) ≠ [] ∧
      ∃ fuel', fuel = fuel' + 1 ∧
        chunkLoopF ws 1000 200 fuel i =
          Chunk.mk (trim (joinSp ((ws.drop i).take 1000))) (i / (1000 - 200)) ::
            chunkLoopF ws 1000 200 fuel' (i + 800)
  | 0, i, hfuel => fun hne => absurd rfl hne
  | fuel + 1, i, hfuel => by
    intro hne
    have hlt : i < ws.length := chunkLoopF_ne_nil_lt hne
    by_cases hkeep : trim (joinSp ((ws.drop i).take 1000)) ≠ []
    · refine ⟨hlt, hkeep, fuel, rfl, ?_⟩
      simp only [chunkLoopF]
      rw [if_pos hlt, if_pos hkeep]
    · push_neg at hkeep
      exfalso
      apply hne
      have hskip := chunkLoopF_skip HW HI hlt hkeep fuel
      simp only [chunkLoopF]
      rw [if_pos hlt, if_neg (by simpa using hkeep)]
      show chunkLoopF ws 1000 200 fuel (i + (1000 - 200)) = []
      norm_num
      exact hskip

theorem chunkLoopF_adj {ws : List JStr}
    (HW : ∀ w ∈ ws, wsFree w)
    (HI : ∀ k, 0 < k → k + 1 < ws.length → ws.getD k [] ≠ []) :
    ∀ (pre : List Chunk) (fuel i : Nat) (c₁ c₂ : Chunk) (suf : List Chunk),
      ws.length < i + fuel →
      chunkLoopF ws 1000 200 fuel i = pre ++ c₁ :: c₂ :: suf →
      suf ≠ [] →
      ∃ i₁, i₁ + 1600 < ws.length ∧
        c₁.text = trim (joinSp ((ws.drop i₁).take 1000)) ∧
        c₂.text = trim (joinSp ((ws.drop (i₁ + 800)).take 1000))
  | [], fuel, i, c₁, c₂, suf => fun hfuel heq hsuf => by
    simp only [List.nil_append] at heq
    have hne : chunkLoopF ws 1000 200 fuel i ≠ [] := by
      rw [heq]
      simp
    obtain ⟨hlt, hkeep, fuel', rfl, hstep⟩ := chunkLoopF_head HW HI fuel i hfuel hne
    have hcomb := heq.symm.trans hstep
    obtain ⟨h1, h2⟩ := List.cons.inj hcomb
    have hne2 : chunkLoopF ws 1000 200 fuel' (i + 800) ≠ [] := by
      rw [← h2]
      simp
    obtain ⟨hlt2, hkeep2, fuel'', rfl, hstep2⟩ :=
      chunkLoopF_head HW HI fuel' (i + 800) (by omega) hne2
    have hcomb2 := h2.trans hstep2
    obtain ⟨h3, h4⟩ := List.cons.inj hcomb2
    have hlt3 : i + 800 + 800 < ws.length := by
      apply @chunkLoopF_ne_nil_lt ws 1000 200 fuel'' (i + 800 + 800)
      rw [← h4]
      exact hsuf
    refine ⟨i, by omega, ?_, ?_⟩
    · rw [h1]
    · rw [h3]
  | p :: pre', fuel, i, c₁, c₂, suf => fun hfuel heq hsuf => by
    rw [List.cons_append] at heq
    have hne : chunkLoopF ws 1000 200 fuel i ≠ [] := by
      rw [heq]
      simp
    obtain ⟨hlt, hkeep, fuel', rfl, hstep⟩ := chunkLoopF_head HW HI fuel i hfuel hne
    have hcomb := heq.symm.trans hstep
    obtain ⟨h1, h2⟩ := List.cons.inj hcomb
    exact chunkLoopF_adj HW HI pre' fuel' (i + 800) c₁ c₂ suf (by omega) h2.symm hsuf

/- ================================================================== -/
/- C7: the overlap invariant -/

/-- C7: for every content text chunked by chunkText with window size 1000
and overlap 200, and every pair of consecutive chunks whose successor is
not the final chunk, the last 200 words of the first chunk equal the first
200 words of the second. -/
theorem c7_overlap_invariant (text : JStr) (pre : List Chunk) (c₁ c₂ : Chunk)
    (suf : List Chunk)
    (hsplit : chunkText text = pre ++ c₁ :: c₂ :: suf) (hsuf : suf ≠ []) :
    lastWords 200 (wordsOfChunk c₁) = (wordsOfChunk c₂).take 200 := by
  have HW := splitWs_wsFree text
  have HI := splitWs_inner_ne text
  unfold chunkText at hsplit
  obtain ⟨i₁, hlen, h1, h2⟩ := chunkLoopF_adj HW HI pre ((splitWs text).length + 1) 0
    c₁ c₂ suf (by omega) hsplit hsuf
  generalize hg : splitWs text = ws at HW HI hlen h1 h2
  have hW1len : ((ws.drop i₁).take 1000).length = 1000 := by
    rw [List.length_take, List.length_drop]
    omega
  have hW2lb : 800 < ((ws.drop (i₁ + 800)).take 1000).length := by
    rw [List.length_take, List.length_drop]
    omega
  have hW2ub : ((ws.drop (i₁ + 800)).take 1000).length ≤ ws.length - (i₁ + 800) := by
    rw [List.length_take, List.length_drop]
    omega
  have hWs1 : ∀ w ∈ (ws.drop i₁).take 1000, wsFree w :=
    fun w hw => HW w (List.drop_subset _ _ (List.take_subset _ _ hw))
  have hWs2 : ∀ w ∈ (ws.drop (i₁ + 800)).take 1000, wsFree w :=
    fun w hw => HW w (List.drop_subset _ _ (List.take_subset _ _ hw))
  have hW1pos : ∀ j, j < 1000 → 0 < i₁ + j → ((ws.drop i₁).take 1000).getD j [] ≠ [] := by
    intro j hj hpos
    rw [getD_window hj (by omega)]
    exact HI (i₁ + j) hpos (by omega)
  have hW2pos : ∀ j, j < 1000 → i₁ + 800 + j + 1 < ws.length →
      ((ws.drop (i₁ + 800)).take 1000).getD j [] ≠ [] := by
    intro j hj hb
    rw [getD_window hj (by omega)]
    exact HI (i₁ + 800 + j) (by omega) hb
  have hdropW1 : ((ws.drop i₁).take 1000).drop 800 = (ws.drop (i₁ + 800)).take 200 := by
    rw [List.drop_take, List.drop_drop]
  have htakeW2 : ((ws.drop (i₁ + 800)).take 1000).take 200 =
      (ws.drop (i₁ + 800)).take 200 := by
    rw [List.take_take]
    norm_num
  have hLeft : lastWords 200 (wordsOfChunk c₁) = (ws.drop (i₁ + 800)).take 200 := by
    by_cases hA : ((ws.drop i₁).take 1000).getD 0 [] = []
    · have hi₁ : i₁ = 0 := by
        by_contra hzz
        exact (hW1pos 0 (by omega) (by omega)) hA
      subst hi₁
      have hne : (ws.drop 0).take 1000 ≠ [] := by
        intro hz
        rw [hz] at hW1len
        simp at hW1len
      obtain ⟨x, t, hxt⟩ := List.exists_cons_of_ne_nil hne
      have hx : x = [] := by
        have hA' := hA
        rw [hxt] at hA'
        simpa using hA'
      subst hx
      have htlen : t.length = 999 := by
        rw [hxt] at hW1len
        simpa using hW1len
      have htfacts : ∀ w ∈ t, w ≠ [] ∧ wsFree w := by
        intro w hw
        refine ⟨?_, hWs1 w (by rw [hxt]; exact List.mem_cons_of_mem _ hw)⟩
        obtain ⟨j, hj, hwj⟩ := List.mem_iff_getElem.mp hw
        have hgd : ((ws.drop 0).take 1000).getD (j + 1) [] = w := by
          rw [hxt, List.getD_cons_succ, List.getD_eq_getElem _ _ hj, hwj]
        have hne' := hW1pos (j + 1) (by omega) (by omega)
        rw [hgd] at hne'
        exact hne'
      have hwords : wordsOfChunk c₁ = t := by
        unfold wordsOfChunk
        rw [h1, hxt]
        exact chunkWords_head_empty t
          (by
            intro hz
            rw [hz] at htlen
            simp at htlen) htfacts
      rw [hwords]
      unfold lastWords
      rw [htlen]
      have hds : ((ws.drop 0).take 1000).drop 800 = t.drop 799 := by
        rw [hxt]
        rfl
      show t.drop (999 - 200) = (ws.drop (0 + 800)).take 200
      rw [show (999 : Nat) - 200 = 799 from rfl, ← hds, hdropW1]
    · have hfacts : ∀ w ∈ (ws.drop i₁).take 1000, w ≠ [] ∧ wsFree w := by
        intro w hw
        refine ⟨?_, hWs1 w hw⟩
        obtain ⟨j, hj, hwj⟩ := List.mem_iff_getElem.mp hw
        have hgd : ((ws.drop i₁).take 1000).getD j [] = w := by
          rw [List.getD_eq_getElem _ _ hj, hwj]
        rcases Nat.eq_zero_or_pos j with rfl | hjpos
        · intro hz
          apply hA
          rw [hgd, hz]
        · have hjb : j < 1000 := by omega
          have hne' := hW1pos j hjb (by omega)
          rw [hgd] at hne'
          exact hne'
      have hwords : wordsOfChunk c₁ = (ws.drop i₁).take 1000 := by
        unfold wordsOfChunk
        rw [h1]
        exact chunkWords_all _
          (by
            intro hz
            rw [hz] at hW1len
            simp at hW1len) hfacts
      rw [hwords]
      unfold lastWords
      rw [hW1len]
      show ((ws.drop i₁).take 1000).drop (1000 - 200) = (ws.drop (i₁ + 800)).take 200
      rw [show (1000 : Nat) - 200 = 800 from rfl, hdropW1]
  have hRight : (wordsOfChunk c₂).take 200 = (ws.drop (i₁ + 800)).take 200 := by
    have hW2ne : (ws.drop (i₁ + 800)).take 1000 ≠ [] := by
      intro hz
      rw [hz] at hW2lb
      simp at hW2lb
    by_cases hB : ((ws.drop (i₁ + 800)).take 1000).getD
        (((ws.drop (i₁ + 800)).take 1000).length - 1) [] = []
    · rcases List.eq_nil_or_concat ((ws.drop (i₁ + 800)).take 1000) with hz | ⟨L, b, hLb⟩
      · exact absurd hz hW2ne
      · rw [List.concat_eq_append] at hLb
        have hLlen : L.length = ((ws.drop (i₁ + 800)).take 1000).length - 1 := by
          rw [hLb]
          simp
        have hb : b = [] := by
          have hB' := hB
          rw [hLb, show (L ++ [b]).length - 1 = L.length by simp,
              List.getD_eq_getElem _ _ (by simp),
              List.getElem_concat_length L b L.length rfl] at hB'
          exact hB'
        subst hb
        have hLfacts : ∀ w ∈ L, w ≠ [] ∧ wsFree w := by
          intro w hw
          refine ⟨?_, hWs2 w (by rw [hLb]; exact List.mem_append_left _ hw)⟩
          obtain ⟨j, hj, hwj⟩ := List.mem_iff_getElem.mp hw
          have hgd : ((ws.drop (i₁ + 800)).take 1000).getD j [] = w := by
            rw [hLb, List.getD_append _ _ _ j hj, List.getD_eq_getElem _ _ hj, hwj]
          have hjb : j < 1000 := by
            have hub : ((ws.drop (i₁ + 800)).take 1000).length ≤ 1000 := by
              rw [List.length_take]
              omega
            omega
          have hbound : i₁ + 800 + j + 1 < ws.length := by omega
          have hne' := hW2pos j hjb hbound
          rw [hgd] at hne'
          exact hne'
        have hLne : L ≠ [] := by
          intro hz
          rw [hz] at hLlen
          simp at hLlen
          omega
        have hwords : wordsOfChunk c₂ = L := by
          unfold wordsOfChunk
          rw [h2, hLb]
          exact chunkWords_last_empty L hLne hLfacts
        rw [hwords]
        have hLtake : L.take 200 = ((ws.drop (i₁ + 800)).take 1000).take 200 := by
          rw [hLb, List.take_append_of_le_length (by omega : 200 ≤ L.length)]
        rw [hLtake, htakeW2]
    · have hfacts : ∀ w ∈ (ws.drop (i₁ + 800)).take 1000, w ≠ [] ∧ wsFree w := by
        intro w hw
        refine ⟨?_, hWs2 w hw⟩
        obtain ⟨j, hj, hwj⟩ := List.mem_iff_getElem.mp hw
        have hgd : ((ws.drop (i₁ + 800)).take 1000).getD j [] = w := by
          rw [List.getD_eq_getElem _ _ hj, hwj]
        by_cases hjl : j = ((ws.drop (i₁ + 800)).take 1000).length - 1
        · intro hz
          apply hB
          rw [← hjl, hgd, hz]
        · have hjb : j < 1000 := by
            have hub : ((ws.drop (i₁ + 800)).take 1000).length ≤ 1000 := by
              rw [List.length_take]
              omega
            omega
          have hbound : i₁ + 800 + j + 1 < ws.length := by omega
          have hne' := hW2pos j hjb hbound
          rw [hgd] at hne'
          exact hne'
      have hwords : wordsOfChunk c₂ = (ws.drop (i₁ + 800)).take 1000 := by
        unfold wordsOfChunk
        rw [h2]
        exact chunkWords_all _ hW2ne hfacts
      rw [hwords, htakeW2]
  rw [hLeft, hRight]

theorem list_len3_ext {α : Type} (l : List α) (d : α) (h : l.length = 3) :
    l = [] ++ l.getD 0 d :: l.getD 1 d :: [l.getD 2 d] := by
  obtain ⟨a, l1, rfl⟩ := List.exists_cons_of_ne_nil
    (show l ≠ [] by intro hz; rw [hz] at h; simp at h)
  obtain ⟨b, l2, rfl⟩ := List.exists_cons_of_ne_nil
    (show l1 ≠ [] by intro hz; rw [hz] at h; simp at h)
  obtain ⟨c, l3, rfl⟩ := List.exists_cons_of_ne_nil
    (show l2 ≠ [] by intro hz; rw [hz] at h; simp at h)
  have hz : l3 = [] := by
    have h3 : l3.length = 0 := by
      simp only [List.length_cons] at h
      omega
    exact List.eq_nil_of_length_eq_zero h3
  subst hz
  rfl

theorem c7_witness :
    lastWords 200 (wordsOfChunk ((chunkText c7Text).getD 0 ⟨[], 0⟩)) =
      (wordsOfChunk ((chunkText c7Text).getD 1 ⟨[], 0⟩)).take 200 :=
  c7_overlap_invariant c7Text [] ((chunkText c7Text).getD 0 ⟨[], 0⟩)
    ((chunkText c7Text).getD 1 ⟨[], 0⟩) [(chunkText c7Text).getD 2 ⟨[], 0⟩]
    (list_len3_ext (chunkText c7Text) ⟨[], 0⟩ (by decide)) (by decide)
